import Mathlib

/-!
A verification development for the `dblp_fetch` Obsidian plugin
(sources: `src/main.ts`, `src/constants.ts`, `src/unnamed/part_000`,
`src/unnamed/part_004` = `dblpTypes.ts`).

The plugin code is embedded shallowly: JavaScript strings are lists of
characters, the vault is an association list from paths to note contents,
and the external collaborators (network fetch, XML parsing, the two
fuzzy-matching libraries, the notification sink) are oracle functions
supplied through an `Env` record, following the interface the spec gives
for them.  Fallible JavaScript code (operations that can throw) returns
`Option`.
-/

set_option maxHeartbeats 1000000

namespace DblpFetch

/-- JavaScript strings are modelled as lists of characters. -/
abbrev Str := List Char

/-! ## Generic string operations (JavaScript semantics) -/

/-- `content.split("\n")` — JavaScript split on a newline.  Splitting the
empty string yields `[""]`, as in JavaScript. -/
def splitL : Str → List Str
  | [] => [[]]
  | c :: cs =>
    if c = '\n' then [] :: splitL cs
    else (c :: (splitL cs).headI) :: (splitL cs).tail

/-- `lines.join("\n")`. -/
def unlines : List Str → Str
  | [] => []
  | [l] => l
  | l :: l' :: ls => l ++ '\n' :: unlines (l' :: ls)

/-- JavaScript `String.prototype.trim`. -/
def jsTrim (s : Str) : Str :=
  ((s.dropWhile Char.isWhitespace).reverse.dropWhile Char.isWhitespace).reverse

/-- JavaScript `String.prototype.indexOf` for a nonempty search string. -/
def findSubIdx (sep : Str) : Str → Option Nat
  | [] => none
  | c :: cs =>
    if sep.isPrefixOf (c :: cs) then some 0 else (findSubIdx sep cs).map (· + 1)

/-- JavaScript `String.prototype.includes` for a nonempty search string. -/
def hasSub (sep s : Str) : Bool :=
  (findSubIdx sep s).isSome

/-- JavaScript `String.prototype.split` with a nonempty separator string;
the fuel argument bounds the recursion and is in practice never exhausted. -/
def splitSubAux (sep : Str) : Nat → Str → List Str
  | 0, s => [s]
  | fuel + 1, s =>
    match findSubIdx sep s with
    | none => [s]
    | some i => s.take i :: splitSubAux sep fuel (s.drop (i + sep.length))

/-- JavaScript `String.prototype.split` with a nonempty separator string. -/
def splitSub (sep s : Str) : List Str :=
  splitSubAux sep (s.length + 1) s

/-- `.replaceAll(/\n(\n)+/g, "\n\n")` — every run of two or more newlines
becomes exactly two.  The scanner tracks how many newlines immediately
precede the current position, capped at two. -/
def collapseAux : Nat → Str → Str
  | _, [] => []
  | n, c :: cs =>
    if c = '\n' then
      if 2 ≤ n then collapseAux n cs else c :: collapseAux (n + 1) cs
    else c :: collapseAux 0 cs

/-- The newline-run collapse applied by the subject-note merge. -/
def collapseNL (s : Str) : Str := collapseAux 0 s

/-! ## The sanitizer (src/main.ts `sanitize`, src/constants.ts
`FORBIDDEN_CHAR_REPLACEMENT`) -/

/-- Modelled from the spec: the host's `normalizePath` collaborator
(§4.1, "normalizing path syntax (collapsing redundant separators)") —
runs of the path separator collapse into a single separator.  The
function itself belongs to the host platform, not to this repository. -/
def normalizePathAux : Bool → Str → Str
  | _, [] => []
  | prev, c :: cs =>
    if c = '/' then
      if prev then normalizePathAux true cs else c :: normalizePathAux true cs
    else c :: normalizePathAux false cs

/-- Modelled from the spec: see `normalizePathAux`. -/
def normalizePath (s : Str) : Str := normalizePathAux false s

/-- src/constants.ts `FORBIDDEN_CHAR_REPLACEMENT`, in source order.
The replacement characters are the exact code points of the source file
(for example, the semicolon maps to U+037E, the Greek question mark). -/
def FORBIDDEN_CHAR_REPLACEMENT : List (Char × Char) :=
  [('/', '⁄'), ('\\', '＼'), (':', '﹕'), (';', ';'),
   ('^', '＾'), ('|', '┃'), ('#', '＃'), ('?', '﹖'),
   ('~', '～'), ('$', '＄'), ('!', '！'), ('&', '＆'),
   ('@', '＠'), ('%', '％'), ('"', '＂'), ('\u0027', '＇'),
   ('<', '＜'), ('>', '＞'), ('\u007B', '｛'), ('\u007D', '｝'),
   ('[', '［'), (']', '］'), ('*', '＊')]

/-- The forbidden characters themselves (the keys of the replacement map). -/
def forbiddenKeys : List Char := FORBIDDEN_CHAR_REPLACEMENT.map (·.1)

/-- src/main.ts `sanitize`: one `replaceAll` per forbidden pair, in source
order, then `normalizePath`.  A `replaceAll` whose pattern is a single
character is a character map. -/
def sanitize (fileName : Str) : Str :=
  normalizePath
    (FORBIDDEN_CHAR_REPLACEMENT.foldl
      (fun acc p => acc.map (fun c => if c = p.1 then p.2 else c)) fileName)

/-- The per-character effect of the chain of `replaceAll`s in `sanitize`. -/
def sanitizeChar (c : Char) : Char :=
  FORBIDDEN_CHAR_REPLACEMENT.foldl (fun a p => if a = p.1 then p.2 else a) c

/-! ## sliceAtFirstComma (src/main.ts) -/

/-- src/constants.ts `EXCEPTION_PREFIXES` (renamed here): the exception
strings containing an internal comma. -/
def ucExceptions : List Str := ["University of California,".data]

/-- The loop body of src/main.ts `sliceAtFirstComma`: scan the exception
list; inside a matching exception, cut at the first comma after it;
after the loop, cut at the first comma of the whole string. -/
def sliceExcLoop (text : Str) : List Str → Str
  | [] =>
    match findSubIdx [','] text with
    | some i => text.take i
    | none => text
  | p :: ps =>
    if p.isPrefixOf text then
      match findSubIdx [','] (text.drop p.length) with
      | some i => text.take (p.length + i)
      | none => text
    else sliceExcLoop text ps

/-- src/main.ts `sliceAtFirstComma`. -/
def sliceAtFirstComma (text : Str) : Str :=
  sliceExcLoop text ucExceptions

/-! ## Basic lemmas about the string operations -/

theorem splitL_cons (c : Char) (cs : Str) :
    splitL (c :: cs) =
      if c = '\n' then [] :: splitL cs
      else (c :: (splitL cs).headI) :: (splitL cs).tail := rfl

theorem splitL_ne_nil (s : Str) : splitL s ≠ [] := by
  cases s with
  | nil => simp [splitL]
  | cons c cs => by_cases hc : c = '\n' <;> simp [splitL, hc]

theorem unlines_splitL (s : Str) : unlines (splitL s) = s := by
  induction s with
  | nil => simp [splitL, unlines]
  | cons c cs ih =>
    by_cases hc : c = '\n'
    · subst hc
      simp only [splitL, if_pos rfl]
      cases h : splitL cs with
      | nil => exact absurd h (splitL_ne_nil cs)
      | cons l ls =>
        rw [h] at ih
        simpa [unlines] using ih
    · simp only [splitL, if_neg hc]
      cases h : splitL cs with
      | nil => exact absurd h (splitL_ne_nil cs)
      | cons l ls =>
        rw [h] at ih
        cases ls with
        | nil => simp_all [unlines]
        | cons l' ls' => simp_all [unlines]

theorem splitL_no_newline (s : Str) : ∀ l ∈ splitL s, '\n' ∉ l := by
  induction s with
  | nil => simp [splitL]
  | cons c cs ih =>
    by_cases hc : c = '\n'
    · subst hc
      simp only [splitL, if_pos rfl]
      intro x hx
      rcases List.mem_cons.mp hx with hx | hx
      · simp [hx]
      · exact ih _ hx
    · simp only [splitL, if_neg hc]
      cases h : splitL cs with
      | nil => exact absurd h (splitL_ne_nil cs)
      | cons l ls =>
        rw [h] at ih
        intro x hx
        rcases List.mem_cons.mp hx with hx | hx
        · subst hx
          intro hmem
          rcases List.mem_cons.mp hmem with h1 | h1
          · exact hc h1.symm
          · exact ih l (by simp) h1
        · simp only [List.tail_cons] at hx
          exact ih _ (by simp [hx])

/-- Splitting a newline-free string is the identity (one segment). -/
theorem splitL_no_nl_eq (s : Str) (h : '\n' ∉ s) : splitL s = [s] := by
  induction s with
  | nil => simp [splitL]
  | cons c cs ih =>
    have hc : c ≠ '\n' := fun hc => h (by simp [hc])
    simp only [splitL, if_neg hc, ih (fun hcs => h (List.mem_cons_of_mem _ hcs))]
    simp [List.headI]

/-- Splitting at an explicit newline after a newline-free block. -/
theorem splitL_append_nl (xs ys : Str) (h : '\n' ∉ xs) :
    splitL (xs ++ '\n' :: ys) = xs :: splitL ys := by
  induction xs with
  | nil => simp [splitL]
  | cons c cs ih =>
    have hc : c ≠ '\n' := fun hc => h (by simp [hc])
    have h' : '\n' ∉ cs := fun hcs => h (List.mem_cons_of_mem _ hcs)
    rw [List.cons_append, splitL_cons, if_neg hc, ih h']
    simp [List.headI]

/-! ## Lemmas about the sanitizer -/

theorem normalizePathAux_no_slash (b : Bool) (s : Str) (h : '/' ∉ s) :
    normalizePathAux b s = s := by
  induction s generalizing b with
  | nil => simp [normalizePathAux]
  | cons c cs ih =>
    have hc : c ≠ '/' := fun hc => h (by simp [hc])
    simp [normalizePathAux, hc, ih false (fun hm => h (List.mem_cons_of_mem _ hm))]

theorem normalizePath_no_slash (s : Str) (h : '/' ∉ s) : normalizePath s = s :=
  normalizePathAux_no_slash false s h

theorem foldl_replaceAll_eq_map (pairs : List (Char × Char)) (s : Str) :
    pairs.foldl (fun acc p => acc.map (fun c => if c = p.1 then p.2 else c)) s
      = s.map (fun c => pairs.foldl (fun a p => if a = p.1 then p.2 else a) c) := by
  induction pairs generalizing s with
  | nil => simp
  | cons p ps ih =>
    simp only [List.foldl_cons]
    rw [ih]
    simp [List.map_map]

theorem sanitizeChar_eq_of_not_mem (c : Char) (h : c ∉ forbiddenKeys) :
    sanitizeChar c = c := by
  simp only [forbiddenKeys, FORBIDDEN_CHAR_REPLACEMENT, List.map_cons, List.map_nil,
    List.mem_cons, List.not_mem_nil, or_false] at h
  push_neg at h
  obtain ⟨h1, h2, h3, h4, h5, h6, h7, h8, h9, h10, h11, h12, h13, h14, h15, h16,
    h17, h18, h19, h20, h21, h22, h23⟩ := h
  simp [sanitizeChar, FORBIDDEN_CHAR_REPLACEMENT, h1, h2, h3, h4, h5, h6, h7, h8,
    h9, h10, h11, h12, h13, h14, h15, h16, h17, h18, h19, h20, h21, h22, h23]

theorem sanitizeChar_key_not_mem :
    ∀ c ∈ forbiddenKeys, sanitizeChar c ∉ forbiddenKeys := by decide

theorem sanitizeChar_not_mem (c : Char) : sanitizeChar c ∉ forbiddenKeys := by
  by_cases hc : c ∈ forbiddenKeys
  · exact sanitizeChar_key_not_mem c hc
  · rw [sanitizeChar_eq_of_not_mem c hc]
    exact hc

theorem sanitize_eq_map (s : Str) : sanitize s = s.map sanitizeChar := by
  have hns : '/' ∉ s.map sanitizeChar := by
    intro hm
    rcases List.mem_map.mp hm with ⟨a, _, ha⟩
    have hnm := sanitizeChar_not_mem a
    rw [ha] at hnm
    exact hnm (by decide)
  show normalizePath _ = _
  rw [foldl_replaceAll_eq_map]
  exact normalizePath_no_slash _ hns

/-- C4: the sanitizer is idempotent, and no character of the fixed forbidden
replacement set survives sanitization of any input. -/
theorem claim_C4 (s : Str) :
    sanitize (sanitize s) = sanitize s ∧
    ∀ c, c ∈ forbiddenKeys → c ∉ sanitize s := by
  constructor
  · rw [sanitize_eq_map s, sanitize_eq_map (s.map sanitizeChar)]
    induction s with
    | nil => rfl
    | cons a as ih =>
      rw [List.map_cons, List.map_cons, ih,
        sanitizeChar_eq_of_not_mem _ (sanitizeChar_not_mem a)]
  · intro c hc hmem
    rw [sanitize_eq_map] at hmem
    rcases List.mem_map.mp hmem with ⟨a, _, ha⟩
    exact sanitizeChar_not_mem a (ha ▸ hc)

/-- Instantiation of `claim_C4` at a concrete forbidden character and string. -/
theorem claim_C4_witness :
    (':' ∈ forbiddenKeys) ∧ ':' ∉ sanitize "a:b".data :=
  ⟨by decide, (claim_C4 "a:b".data).2 ':' (by decide)⟩

/-! ## Lemmas about sliceAtFirstComma -/

theorem cutAtChar_eq_takeWhile (c : Char) (t : Str) :
    (match findSubIdx [c] t with
      | some i => t.take i
      | none => t) = t.takeWhile (fun x => x != c) := by
  induction t with
  | nil => simp [findSubIdx, List.takeWhile]
  | cons x xs ih =>
    by_cases hx : x = c
    · subst hx
      have hpre : List.isPrefixOf [x] (x :: xs) = true := by
        simp [List.isPrefixOf]
      simp [findSubIdx, hpre, List.takeWhile]
    · have hpre : List.isPrefixOf [c] (x :: xs) = false := by
        simp only [List.isPrefixOf, List.isPrefixOf_nil_left, Bool.and_true,
          beq_eq_false_iff_ne, ne_eq]
        exact fun h => hx h.symm
      have hxb : (x != c) = true := by simp [hx]
      rw [show findSubIdx [c] (x :: xs)
            = (findSubIdx [c] xs).map (· + 1) by simp [findSubIdx, hpre]]
      cases h : findSubIdx [c] xs with
      | none =>
        rw [h] at ih
        simp only [Option.map_none']
        simp only [List.takeWhile_cons, hxb, if_true]
        rw [← ih]
      | some i =>
        rw [h] at ih
        simp only [Option.map_some']
        simp only [List.takeWhile_cons, hxb, if_true, List.take_succ_cons]
        rw [← ih]

theorem findSub_none_eq (c : Char) (t : Str) (h : findSubIdx [c] t = none) :
    t.takeWhile (fun x => x != c) = t := by
  have := cutAtChar_eq_takeWhile c t
  rw [h] at this
  exact this.symm

theorem findSub_some_eq (c : Char) (t : Str) (i : Nat)
    (h : findSubIdx [c] t = some i) :
    t.take i = t.takeWhile (fun x => x != c) := by
  have := cutAtChar_eq_takeWhile c t
  rw [h] at this
  exact this

theorem take_length_add (l₁ l₂ : Str) (i : Nat) :
    (l₁ ++ l₂).take (l₁.length + i) = l₁ ++ l₂.take i := by
  induction l₁ with
  | nil => simp
  | cons a as ih => simp [List.take_succ_cons, Nat.succ_add, ih]

theorem takeWhile_ne_of_not_mem (c : Char) (t : Str) (h : c ∉ t) :
    t.takeWhile (fun x => x != c) = t := by
  induction t with
  | nil => simp
  | cons x xs ih =>
    have hx : x ≠ c := fun hx => h (by simp [hx])
    have hxs : c ∉ xs := fun hm => h (List.mem_cons_of_mem _ hm)
    simp [List.takeWhile_cons, hx, ih hxs]

/-- C9: `sliceAtFirstComma` cuts its input at the first comma; when the
input starts with the "University of California," exception, it cuts at
the first comma after that exception; when the relevant comma does not
exist it returns the input verbatim; and it yields the two documented
example values. -/
theorem claim_C9 :
    (∀ t : Str, "University of California,".data.isPrefixOf t = false →
        sliceAtFirstComma t = t.takeWhile (fun x => x != ',')) ∧
    (∀ t : Str, "University of California,".data.isPrefixOf t = true →
        sliceAtFirstComma t =
          "University of California,".data ++
            (t.drop "University of California,".data.length).takeWhile
              (fun x => x != ',')) ∧
    (∀ t : Str, ',' ∉ t → sliceAtFirstComma t = t) ∧
    sliceAtFirstComma "University of California, Berkeley, Computer Science".data
      = "University of California, Berkeley".data ∧
    sliceAtFirstComma "MIT, CSAIL".data = "MIT".data := by
  refine ⟨?_, ?_, ?_, by decide, by decide⟩
  · intro t h
    simp only [sliceAtFirstComma, ucExceptions, sliceExcLoop, h,
      Bool.false_eq_true, if_false]
    exact cutAtChar_eq_takeWhile ',' t
  · intro t h
    obtain ⟨rest, rfl⟩ := List.isPrefixOf_iff_prefix.mp h
    simp only [sliceAtFirstComma, ucExceptions, sliceExcLoop, h, if_true]
    rw [List.drop_left]
    cases hf : findSubIdx [','] rest with
    | some i =>
      simp only [hf]
      rw [take_length_add, findSub_some_eq ',' rest i hf]
    | none =>
      simp only [hf]
      rw [findSub_none_eq ',' rest hf]
  · intro t h
    have hpre : "University of California,".data.isPrefixOf t = false := by
      by_contra hb
      have hb' : "University of California,".data.isPrefixOf t = true := by
        revert hb
        cases "University of California,".data.isPrefixOf t <;> simp
      have hp := List.isPrefixOf_iff_prefix.mp hb'
      exact h (hp.subset (by decide))
    simp only [sliceAtFirstComma, ucExceptions, sliceExcLoop, hpre,
      Bool.false_eq_true, if_false]
    rw [cutAtChar_eq_takeWhile]
    exact takeWhile_ne_of_not_mem ',' t h

/-- Instantiation of `claim_C9` at a concrete comma-free string. -/
theorem claim_C9_witness :
    sliceAtFirstComma "MIT".data = "MIT".data :=
  claim_C9.2.2.1 "MIT".data (by decide)

/-! ## The remote data model (dblpTypes.ts = src/unnamed/part_004) -/

/-- A remote field that xml2js delivers either as a single item or as a
list, depending on cardinality. -/
inductive OneOrMany (α : Type) where
  | one (a : α)
  | many (l : List α)
deriving DecidableEq, Repr

/-- A publication record as delivered by the XML parser: the structural
fields that the three venue-kind interfaces of dblpTypes.ts can read.
`publtype` lives inside the `$` attribute object; `booktitle` and
`journal` are present or absent per record.  TypeScript interfaces are
structural, so a member of the union type `Publication` is any record
conforming to at least one of the three interface shapes. -/
structure Publication where
  title : Str
  year : Str
  key : Str
  publtype : Option Str
  author : OneOrMany Str
  booktitle : Option Str
  journal : Option Str
deriving DecidableEq, Repr

/-- dblpTypes.ts `isInProceedings`: `'booktitle' in x && '$' in x &&
!('publtype' in x.$)`.  (`'$' in x` always holds: every record carries
its attribute object.) -/
def isInProceedings (x : Publication) : Bool :=
  x.booktitle.isSome && !x.publtype.isSome

/-- dblpTypes.ts `isJournalArticle`: `'journal' in x && '$' in x &&
!('publtype' in x.$)`. -/
def isJournalArticle (x : Publication) : Bool :=
  x.journal.isSome && !x.publtype.isSome

/-- dblpTypes.ts `isInformalArticle`: `'journal' in x && '$' in x &&
'publtype' in x.$`. -/
def isInformalArticle (x : Publication) : Bool :=
  x.journal.isSome && x.publtype.isSome

/-- Structural membership in the TypeScript union
`Publication = InProceedings | JournalArticle | InformalArticle`:
conformance to `InProceedings` needs `booktitle`, conformance to either
article interface needs `journal`. -/
def inPublicationUnion (x : Publication) : Bool :=
  x.booktitle.isSome || x.journal.isSome

/-- How many of the three venue-kind predicates accept the record. -/
def kindCount (x : Publication) : Nat :=
  (if isInProceedings x then 1 else 0) +
    (if isJournalArticle x then 1 else 0) +
    (if isInformalArticle x then 1 else 0)

/-- A record carrying both a `booktitle` and a `journal` field: it
conforms to both the `InProceedings` and the `JournalArticle` interface,
so it inhabits the union type. -/
def bothKindsPub : Publication :=
  { title := "T".data, year := "2020".data, key := "k".data,
    publtype := none, author := .one "A".data,
    booktitle := some "STOC".data, journal := some "JACM".data }

/-- C6, counterexample: `bothKindsPub` is a publication record (it lies in
the union type), yet two of the three venue-kind predicates accept it,
so the classification is not mutually exclusive. -/
theorem claim_C6_counterexample :
    inPublicationUnion bothKindsPub = true ∧
      isInProceedings bothKindsPub = true ∧
      isJournalArticle bothKindsPub = true ∧
      kindCount bothKindsPub ≠ 1 := by decide

/-- C6, amended: for every publication record that conforms to exactly one
interface shape — `booktitle` and `journal` not both present, and a
`booktitle` record carrying no publication-type tag — exactly one of the
three venue-kind predicates holds. -/
theorem claim_C6 (x : Publication)
    (hu : inPublicationUnion x = true)
    (hnb : ¬(x.booktitle.isSome = true ∧ x.journal.isSome = true))
    (hbp : x.booktitle.isSome = true → x.publtype = none) :
    kindCount x = 1 := by
  rcases x with ⟨t, y, k, pt, a, bt, j⟩
  cases bt <;> cases j <;> cases pt <;>
    simp_all [kindCount, isInProceedings, isJournalArticle, isInformalArticle,
      inPublicationUnion]

/-- Instantiation of `claim_C6` at a concrete informal-article record. -/
theorem claim_C6_witness :
    kindCount
      { title := "T".data, year := "2020".data, key := "k".data,
        publtype := some "informal".data, author := .one "A".data,
        booktitle := none, journal := some "CoRR".data } = 1 :=
  claim_C6 _ (by decide) (by decide) (by decide)

/-! ## The remaining profile data model -/

/-- The `$` attribute object of a dblp person note. -/
structure NoteAttrs where
  typ : Str
  label : Option Str
deriving DecidableEq, Repr

/-- dblpTypes.ts `DblpNote`: optional attributes plus the text payload. -/
structure DblpNote where
  attrs : Option NoteAttrs
  text : Str
deriving DecidableEq, Repr

/-- dblpTypes.ts `Person`.  A `url` entry is a plain string or an object
carrying a `_` text field; both denote one string, which is what
`processURL` reads, so entries are modelled by that string. -/
structure PersonRec where
  note : Option (OneOrMany DblpNote)
  url : Option (OneOrMany Str)
deriving DecidableEq, Repr

/-- One element of dblpTypes.ts `Coauthor.na`: display name and pid. -/
structure CoNA where
  name : Str
  pid : Str
deriving DecidableEq, Repr

/-- dblpTypes.ts `Coauthor`. -/
structure Coauthor where
  na : OneOrMany CoNA
deriving DecidableEq, Repr

/-- One entry of `dblpPerson.r`: the wrapper object
`{ inproceedings: ... }` or `{ article: ... }`. -/
inductive REntry where
  | inproc (p : Publication)
  | article (p : Publication)
deriving DecidableEq, Repr

/-- dblpTypes.ts `DblpPerson` (the `$` attributes `n` and `name`
inlined; the `CoauthorList` wrapper reduced to its `co` payload). -/
structure DblpPerson where
  person : PersonRec
  coauthors : Option (OneOrMany Coauthor)
  r : REntry ⊕ List REntry
  n : Nat
  name : Str
deriving DecidableEq, Repr

/-! ## Constants (src/constants.ts) -/

def PEOPLE_DIR : Str := "People".data
def CONF_PAPER_DIR : Str := "Papers/Conference".data
def JOURNAL_PAPER_DIR : Str := "Papers/Journal".data
def INFORMAL_PAPER_DIR : Str := "Papers/Informal".data
def ORG_DIR : Str := "Organizations".data

def DBLP_BASE_URLS : List Str :=
  ["https://dblp.org".data, "https://dblp.uni-trier.de".data,
   "https://dblp.dagstuhl.de".data]

def DBLP_MAIN_URL : Str := "https://dblp.org".data

/-! ## The vault (the spec's storage collaborator, §6) -/

/-- The note store: an association list from paths to note contents, in
creation order.  Folders are implicit — the plugin creates every needed
folder idempotently (create wrapped in an empty catch) right before the
file writes, so only files carry state. -/
structure Vault where
  files : List (Str × Str)
deriving DecidableEq, Repr

/-- Reading a path. -/
def Vault.lookup (v : Vault) (p : Str) : Option Str :=
  (v.files.find? (fun f => f.1 = p)).map (·.2)

/-- `this.app.vault.create` wrapped in try/catch (`createFile` in the
sources, the spec's `createIfAbsent`): append the note if the path is
absent and report success, else leave the vault unchanged and report
failure. -/
def Vault.createFile (v : Vault) (p c : Str) : Vault × Bool :=
  match v.lookup p with
  | some _ => (v, false)
  | none => (⟨v.files ++ [(p, c)]⟩, true)

/-- `this.app.vault.process`: replace the content at an existing path in
place; append at a fresh path (a `TFile` handle normally denotes an
existing note). -/
def Vault.write (v : Vault) (p c : Str) : Vault :=
  if (v.lookup p).isSome then
    ⟨v.files.map (fun f => if f.1 = p then (p, c) else f)⟩
  else ⟨v.files ++ [(p, c)]⟩

/-! ## Frontmatter (the host's getFrontMatterInfo collaborator) -/

/-- Modelled from the spec: the metadata block is delimited by a `---`
sentinel line appearing as the first line and again later (§3 "Note");
`fmBody` collects the lines strictly between the sentinels, `none` when
no closing sentinel exists. -/
def fmBody : List Str → Option (List Str)
  | [] => none
  | l :: ls => if l = "---".data then some [] else (fmBody ls).map (l :: ·)

/-- Modelled from the spec: `getFrontMatterInfo` — `some` text strictly
between the sentinels when a complete block exists. -/
def frontmatterInfo (c : Str) : Option Str :=
  match splitL c with
  | [] => none
  | l₀ :: rest => if l₀ = "---".data then (fmBody rest).map unlines else none

/-- `getFrontMatterInfo(...).frontmatter`: the empty string when no
complete block exists. -/
def frontmatterText (c : Str) : Str :=
  (frontmatterInfo c).getD []

/-- part_000 `createPublicationMdFiles`: read the occupying note and take
`frontMatterInfo.frontmatter.split(': ')[1].trim()`; `none` models the
TypeError thrown when the split has no second component. -/
def extractFileKey (c : Str) : Option Str :=
  ((splitSub (": ".data) (frontmatterText c))[1]?).map jsTrim

/-! ## The external collaborators -/

/-- The external collaborators as oracles (spec §6): the network fetch,
the XML parse of a profile document, and the two similarity indices
(FuzzySet and Fuse) queried against a catalog key list.  A Fuse result
carries an optional score, as in the library; scores are modelled as
rationals. -/
structure Env where
  http : Str → Option Str
  parse : Str → Option DblpPerson
  fuzzy : List Str → Str → List (ℚ × Str)
  fuse : List Str → Str → List (Option ℚ × Str)

/-- The retry loop over `DBLP_BASE_URLS` (part_000): the first nonempty
successful response, or the empty string when every base fails or
returns empty text. -/
def fetchFirst (http : Str → Option Str) : List Str → Str
  | [] => []
  | u :: us =>
    match http u with
    | some t => if t = [] then fetchFirst http us else t
    | none => fetchFirst http us

/-! ## The publication reconciler (part_000 createPublicationMdFiles) -/

/-- The `.bib` URLs tried for a publication key. -/
def bibUrls (key : Str) : List Str :=
  DBLP_BASE_URLS.map (fun b => b ++ "/rec/".data ++ key ++ ".bib".data)

/-- `pub.booktitle.replaceAll(/[^A-Z]/g, "")`. -/
def venueAcronym (s : Str) : Str :=
  s.filter (fun c => 'A' ≤ c && c ≤ 'Z')

/-- The target folder computed by `createPublicationMdFiles` from the
venue kind (empty when no predicate accepts the record). -/
def pubFolder (pub : Publication) : Str :=
  if isInProceedings pub then
    CONF_PAPER_DIR ++ '/' :: venueAcronym (pub.booktitle.getD []) ++
      '/' :: pub.year
  else if isJournalArticle pub then
    JOURNAL_PAPER_DIR ++ '/' :: pub.journal.getD [] ++ '/' :: pub.year
  else if isInformalArticle pub then
    INFORMAL_PAPER_DIR ++ '/' :: pub.year
  else []

/-- `${path}/${title}.md` with the sanitized title. -/
def pubPlainPath (pub : Publication) : Str :=
  pubFolder pub ++ '/' :: sanitize pub.title ++ ".md".data

/-- `${path}/${altTitle}.md` with
`altTitle = sanitize(title + "(" + key + ")")`, `title` already
sanitized and `key` trimmed, as in part_000. -/
def pubAltPath (pub : Publication) : Str :=
  pubFolder pub ++ '/' ::
    sanitize (sanitize pub.title ++ "(".data ++ jsTrim pub.key ++ ")".data) ++
      ".md".data

/-- One `author:: [[...]]` line per author. -/
def authorLines (a : OneOrMany Str) : List Str :=
  match a with
  | .many l => l.map (fun x => "author:: [[".data ++ x ++ "]]".data)
  | .one x => ["author:: [[".data ++ x ++ "]]".data]

/-- The composed note content
`---\nkey: ${key}\n---\n(three backticks)bibtex\n${citation}(three backticks)\n${authors.join("\n")}`,
written in a form that makes the line structure explicit. -/
def pubContent (key cit : Str) (a : OneOrMany Str) : Str :=
  "---".data ++ '\n' :: "key: ".data ++ key ++ '\n' :: "---".data ++
    '\n' :: "```bibtex".data ++ '\n' :: cit ++ "```".data ++
    '\n' :: unlines (authorLines a)

/-- One iteration of the part_000 `createPublicationMdFiles` loop.
`none` models the TypeError thrown when an occupying note has no
well-formed `key` line. -/
def createPubStep (env : Env) (v : Vault) (pub : Publication) : Option Vault :=
  if fetchFirst env.http (bibUrls pub.key) = [] then some v
  else
    match v.createFile (pubPlainPath pub)
        (pubContent (jsTrim pub.key) (fetchFirst env.http (bibUrls pub.key))
          pub.author) with
    | (v', true) => some v'
    | (_, false) =>
      match v.lookup (pubPlainPath pub) with
      | none => some v
      | some fileContents =>
        match extractFileKey fileContents with
        | none => none
        | some fileKey =>
          if jsTrim pub.key ≠ fileKey then
            some (v.createFile (pubAltPath pub)
              (pubContent (jsTrim pub.key)
                (fetchFirst env.http (bibUrls pub.key)) pub.author)).1
          else some v

/-- The classifiability filter at the head of part_000
`createPublicationMdFiles`. -/
def pubKindKnown (pub : Publication) : Bool :=
  isInProceedings pub || isJournalArticle pub || isInformalArticle pub

/-- part_000 `createPublicationMdFiles`: filter to classifiable records,
then process each record in order. -/
def createPublicationMdFiles (env : Env) (v : Vault)
    (queued : List Publication) : Option Vault :=
  (queued.filter pubKindKnown).foldlM (createPubStep env) v

/-! ## Vault lemmas -/

theorem Vault.createFile_free (v : Vault) (p c : Str) (h : v.lookup p = none) :
    v.createFile p c = (⟨v.files ++ [(p, c)]⟩, true) := by
  simp [Vault.createFile, h]

theorem Vault.createFile_occupied (v : Vault) (p c d : Str)
    (h : v.lookup p = some d) :
    v.createFile p c = (v, false) := by
  simp [Vault.createFile, h]

theorem Vault.lookup_append_self (v : Vault) (p c : Str)
    (h : v.lookup p = none) :
    (Vault.mk (v.files ++ [(p, c)])).lookup p = some c := by
  simp only [Vault.lookup, Option.map_eq_none'] at h
  simp [Vault.lookup, List.find?_append, h]

theorem Vault.lookup_append_ne (v : Vault) (p c q : Str) (h : q ≠ p) :
    (Vault.mk (v.files ++ [(p, c)])).lookup q = v.lookup q := by
  simp only [Vault.lookup, List.find?_append]
  cases hf : v.files.find? (fun f => f.1 = q) with
  | some x => simp
  | none => simp [Ne.symm h]

/-! ## The frontmatter round-trip for publication notes -/

/-- Well-formedness of a publication key: free of newlines and of the
`": "` separator, and stable under trimming. -/
def plainKey (k : Str) : Prop :=
  '\n' ∉ k ∧ findSubIdx (": ".data) k = none ∧ jsTrim k = k

instance : DecidablePred plainKey := fun k => by
  unfold plainKey
  infer_instance

theorem findSubIdx_cons_not_pre (sep : Str) (c : Char) (cs : Str)
    (h : sep.isPrefixOf (c :: cs) = false) :
    findSubIdx sep (c :: cs) = (findSubIdx sep cs).map (· + 1) := by
  simp [findSubIdx, h]

theorem isPrefixOf_cons_ne (s : Str) (a c : Char) (cs : Str)
    (h : (a == c) = false) :
    List.isPrefixOf (a :: s) (c :: cs) = false := by
  simp [List.isPrefixOf, h]

theorem findSubIdx_keyline (k : Str) :
    findSubIdx [':', ' '] ('k' :: 'e' :: 'y' :: ':' :: ' ' :: k) = some 3 := by
  rw [findSubIdx_cons_not_pre _ _ _ (isPrefixOf_cons_ne _ _ _ _ (by decide))]
  rw [findSubIdx_cons_not_pre _ _ _ (isPrefixOf_cons_ne _ _ _ _ (by decide))]
  rw [findSubIdx_cons_not_pre _ _ _ (isPrefixOf_cons_ne _ _ _ _ (by decide))]
  have hpre : List.isPrefixOf [':', ' '] (':' :: ' ' :: k) = true := by
    simp [List.isPrefixOf]
  rw [show findSubIdx [':', ' '] (':' :: ' ' :: k) = some 0 by
    simp [findSubIdx, hpre]]
  rfl

theorem splitSubAux_no_occurrence (sep k : Str) (fuel : Nat)
    (hns : findSubIdx sep k = none) :
    splitSubAux sep fuel k = [k] := by
  cases fuel with
  | zero => rfl
  | succ n => simp [splitSubAux, hns]

theorem splitSubAux_step (sep s : Str) (fuel i : Nat)
    (hfind : findSubIdx sep s = some i) :
    splitSubAux sep (fuel + 1) s
      = s.take i :: splitSubAux sep fuel (s.drop (i + sep.length)) := by
  simp [splitSubAux, hfind]

theorem splitSub_keyline (k : Str) (hns : findSubIdx (": ".data) k = none) :
    splitSub (": ".data) ("key: ".data ++ k) = ["key".data, k] := by
  show splitSubAux [':', ' '] (("key: ".data ++ k).length + 1)
      ('k' :: 'e' :: 'y' :: ':' :: ' ' :: k) = _
  have h1 : ("key: ".data ++ k).length + 1 = (k.length + 5) + 1 := by
    have h5 : ("key: ".data).length = 5 := by decide
    rw [List.length_append, h5]
    omega
  rw [h1, splitSubAux_step _ _ _ 3 (findSubIdx_keyline k)]
  have hd : List.drop (3 + List.length [':', ' '])
      ('k' :: 'e' :: 'y' :: ':' :: ' ' :: k) = k := by simp
  rw [hd, splitSubAux_no_occurrence _ _ _ hns]
  simp

theorem splitL_pubContent (k cit : Str) (a : OneOrMany Str) (hk : '\n' ∉ k) :
    splitL (pubContent k cit a)
      = "---".data :: ("key: ".data ++ k) :: "---".data ::
          splitL ("```bibtex".data ++ '\n' :: cit ++ "```".data ++
            '\n' :: unlines (authorLines a)) := by
  have h1 : pubContent k cit a
      = "---".data ++ '\n' ::
          (("key: ".data ++ k) ++ '\n' ::
            ("---".data ++ '\n' ::
              ("```bibtex".data ++ '\n' :: cit ++ "```".data ++
                '\n' :: unlines (authorLines a)))) := by
    simp [pubContent]
  rw [h1]
  rw [splitL_append_nl _ _ (by decide)]
  rw [splitL_append_nl _ _ (by
    intro hmem
    rcases List.mem_append.mp hmem with hm | hm
    · revert hm; decide
    · exact hk hm)]
  rw [splitL_append_nl _ _ (by decide)]

theorem frontmatterText_pubContent (k cit : Str) (a : OneOrMany Str)
    (hk : '\n' ∉ k) :
    frontmatterText (pubContent k cit a) = "key: ".data ++ k := by
  unfold frontmatterText frontmatterInfo
  rw [splitL_pubContent k cit a hk]
  have hne : ("key: ".data ++ k) ≠ "---".data := by
    intro h
    have hlen := congrArg List.length h
    have h5 : ("key: ".data).length = 5 := by decide
    have h3 : ("---".data).length = 3 := by decide
    rw [List.length_append, h5, h3] at hlen
    omega
  simp [fmBody, hne, unlines]

theorem extractFileKey_pubContent (k cit : Str) (a : OneOrMany Str)
    (hpk : plainKey k) :
    extractFileKey (pubContent k cit a) = some k := by
  obtain ⟨hnl, hns, htr⟩ := hpk
  unfold extractFileKey
  rw [frontmatterText_pubContent k cit a hnl, splitSub_keyline k hns]
  simp [htr]

/-! ## Claim C7: a failed citation fetch skips the record -/

/-- C7: when every base URL fails to yield citation text for a record,
that record is skipped — no note is written for it and the vault is
untouched on its behalf — and the remaining queue is processed exactly
as if the record were absent.  (The failure notice goes to the external
notification sink, which never affects control flow.) -/
theorem claim_C7 (env : Env) (v : Vault) (pub : Publication)
    (rest : List Publication)
    (h : fetchFirst env.http (bibUrls pub.key) = []) :
    createPublicationMdFiles env v (pub :: rest)
      = createPublicationMdFiles env v rest := by
  unfold createPublicationMdFiles
  rw [List.filter_cons]
  cases hk : pubKindKnown pub with
  | false => simp
  | true =>
    rw [if_pos rfl, List.foldlM_cons]
    have hstep : createPubStep env v pub = some v := by
      simp [createPubStep, h]
    rw [hstep]
    simp

/-- Instantiation of `claim_C7`: all fetches fail for a concrete record. -/
theorem claim_C7_witness :
    createPublicationMdFiles
        ⟨fun _ => none, fun _ => none, fun _ _ => [], fun _ _ => []⟩ ⟨[]⟩
        [{ title := "A Paper".data, year := "2021".data, key := "conf/x/Y21".data,
           publtype := none, author := .one "Jane Doe".data,
           booktitle := some "STOC".data, journal := none }]
      = createPublicationMdFiles
          ⟨fun _ => none, fun _ => none, fun _ _ => [], fun _ _ => []⟩ ⟨[]⟩ [] :=
  claim_C7 _ _ _ _ rfl

/-! ## Claim C2: collision disambiguation and the already-synced case -/

theorem createPubStep_fresh (env : Env) (v : Vault) (pub : Publication)
    (hcit : fetchFirst env.http (bibUrls pub.key) ≠ [])
    (hfree : v.lookup (pubPlainPath pub) = none) :
    createPubStep env v pub
      = some ⟨v.files ++
          [(pubPlainPath pub,
            pubContent (jsTrim pub.key) (fetchFirst env.http (bibUrls pub.key))
              pub.author)]⟩ := by
  unfold createPubStep
  rw [if_neg hcit, Vault.createFile_free _ _ _ hfree]

/-- When the plain path is occupied by a note whose recorded key matches,
the record is treated as already synced: no write happens. -/
theorem createPubStep_synced (env : Env) (v : Vault) (pub : Publication)
    (c : Str)
    (hocc : v.lookup (pubPlainPath pub) = some c)
    (hkey : extractFileKey c = some (jsTrim pub.key)) :
    createPubStep env v pub = some v := by
  unfold createPubStep
  cases hcit : fetchFirst env.http (bibUrls pub.key) with
  | nil => simp
  | cons a as =>
    rw [if_neg (by simp), Vault.createFile_occupied _ _ _ _ hocc, hocc]
    simp [hkey]

/-- When the plain path is occupied by a note recording a different key,
the record is retried at its alternate path. -/
theorem createPubStep_collision (env : Env) (v : Vault) (pub : Publication)
    (c fk : Str)
    (hcit : fetchFirst env.http (bibUrls pub.key) ≠ [])
    (hocc : v.lookup (pubPlainPath pub) = some c)
    (hkey : extractFileKey c = some fk)
    (hne : jsTrim pub.key ≠ fk) :
    createPubStep env v pub
      = some (v.createFile (pubAltPath pub)
          (pubContent (jsTrim pub.key) (fetchFirst env.http (bibUrls pub.key))
            pub.author)).1 := by
  unfold createPubStep
  rw [if_neg hcit, Vault.createFile_occupied _ _ _ _ hocc, hocc]
  simp [hkey, hne]

/-- C2.  Part one (collision disambiguation): for two classifiable records
with distinct plain keys whose titles sanitize identically and whose
folders coincide, with both target paths initially free and citations
obtainable, processing the pair persists the first record's note at the
plain sanitized-title path and the second record's note at its
`sanitize(title(key))` alternate path, each holding its own content.
Part two (already synced): when creation fails because the plain path is
occupied and the occupying note's recorded key equals the record's key,
the run performs no write at all. -/
theorem claim_C2 :
    (∀ (env : Env) (v : Vault) (p₁ p₂ : Publication),
      pubKindKnown p₁ = true → pubKindKnown p₂ = true →
      jsTrim p₁.key ≠ jsTrim p₂.key →
      plainKey (jsTrim p₁.key) →
      sanitize p₁.title = sanitize p₂.title →
      pubFolder p₁ = pubFolder p₂ →
      fetchFirst env.http (bibUrls p₁.key) ≠ [] →
      fetchFirst env.http (bibUrls p₂.key) ≠ [] →
      v.lookup (pubPlainPath p₁) = none →
      v.lookup (pubAltPath p₂) = none →
      pubAltPath p₂ ≠ pubPlainPath p₁ →
      ∃ v' : Vault,
        createPublicationMdFiles env v [p₁, p₂] = some v' ∧
        v'.lookup (pubPlainPath p₁)
          = some (pubContent (jsTrim p₁.key)
              (fetchFirst env.http (bibUrls p₁.key)) p₁.author) ∧
        v'.lookup (pubAltPath p₂)
          = some (pubContent (jsTrim p₂.key)
              (fetchFirst env.http (bibUrls p₂.key)) p₂.author)) ∧
    (∀ (env : Env) (v : Vault) (pub : Publication) (c : Str),
      pubKindKnown pub = true →
      v.lookup (pubPlainPath pub) = some c →
      extractFileKey c = some (jsTrim pub.key) →
      createPublicationMdFiles env v [pub] = some v) := by
  constructor
  · intro env v p₁ p₂ hk₁ hk₂ hkey hpk₁ htitle hfold hcit₁ hcit₂ hfree₁ hfree₂ hne
    have hpath : pubPlainPath p₂ = pubPlainPath p₁ := by
      unfold pubPlainPath
      rw [htitle, hfold]
    set c₁ := pubContent (jsTrim p₁.key) (fetchFirst env.http (bibUrls p₁.key))
        p₁.author with hc₁
    set c₂ := pubContent (jsTrim p₂.key) (fetchFirst env.http (bibUrls p₂.key))
        p₂.author with hc₂
    set v₁ : Vault := ⟨v.files ++ [(pubPlainPath p₁, c₁)]⟩ with hv₁
    have hlook₁ : v₁.lookup (pubPlainPath p₁) = some c₁ :=
      Vault.lookup_append_self v _ _ hfree₁
    have hlookAlt : v₁.lookup (pubAltPath p₂) = none := by
      rw [hv₁, Vault.lookup_append_ne v _ _ _ hne]
      exact hfree₂
    have hocc₂ : v₁.lookup (pubPlainPath p₂) = some c₁ := by
      rw [hpath]
      exact hlook₁
    have hextract : extractFileKey c₁ = some (jsTrim p₁.key) := by
      rw [hc₁]
      exact extractFileKey_pubContent _ _ _ hpk₁
    refine ⟨⟨v₁.files ++ [(pubAltPath p₂, c₂)]⟩, ?_, ?_, ?_⟩
    · unfold createPublicationMdFiles
      have hfilter : [p₁, p₂].filter pubKindKnown = [p₁, p₂] := by
        simp [List.filter, hk₁, hk₂]
      rw [hfilter, List.foldlM_cons, createPubStep_fresh env v p₁ hcit₁ hfree₁]
      simp only [Option.bind_some]
      show List.foldlM (createPubStep env) v₁ [p₂] = _
      rw [List.foldlM_cons]
      have hstep₂ : createPubStep env v₁ p₂
          = some ⟨v₁.files ++ [(pubAltPath p₂, c₂)]⟩ := by
        rw [createPubStep_collision env v₁ p₂ c₁ (jsTrim p₁.key) hcit₂ hocc₂
          hextract (Ne.symm hkey)]
        rw [Vault.createFile_free _ _ _ hlookAlt]
      rw [hstep₂]
      simp
    · rw [Vault.lookup_append_ne v₁ _ _ _ (Ne.symm hne)]
      exact hlook₁
    · exact Vault.lookup_append_self v₁ _ _ hlookAlt
  · intro env v pub c hk hocc hkey
    unfold createPublicationMdFiles
    have hfilter : [pub].filter pubKindKnown = [pub] := by
      simp [List.filter, hk]
    rw [hfilter, List.foldlM_cons, createPubStep_synced env v pub c hocc hkey]
    simp

/-- Instantiation of `claim_C2` at two concrete informal articles with
equal titles and distinct keys, against an empty vault. -/
theorem claim_C2_witness :
    ∃ v' : Vault,
      createPublicationMdFiles
          ⟨fun _ => some "bib".data, fun _ => none, fun _ _ => [], fun _ _ => []⟩
          ⟨[]⟩
          [{ title := "Same Title".data, year := "2020".data, key := "k1".data,
             publtype := some "informal".data, author := .one "A".data,
             booktitle := none, journal := some "CoRR".data },
           { title := "Same Title".data, year := "2020".data, key := "k2".data,
             publtype := some "informal".data, author := .one "B".data,
             booktitle := none, journal := some "CoRR".data }]
        = some v' ∧
      v'.lookup (pubPlainPath
          { title := "Same Title".data, year := "2020".data, key := "k1".data,
            publtype := some "informal".data, author := .one "A".data,
            booktitle := none, journal := some "CoRR".data })
        = some (pubContent "k1".data "bib".data (.one "A".data)) ∧
      v'.lookup (pubAltPath
          { title := "Same Title".data, year := "2020".data, key := "k2".data,
            publtype := some "informal".data, author := .one "B".data,
            booktitle := none, journal := some "CoRR".data })
        = some (pubContent "k2".data "bib".data (.one "B".data)) :=
  claim_C2.1 _ _ _ _ (by decide) (by decide) (by decide) (by decide) rfl rfl
    (by decide) (by decide) rfl rfl (by decide)

/-! ## The structured-field upsert (part_000 populateAuthorNotes transform) -/

/-- part_000 `hasProperties`: the first line is the `---` sentinel. -/
def hasProperties (lines : List Str) : Bool :=
  match lines with
  | [] => false
  | l :: _ => l = "---".data

/-- The scan behind part_000 `exists`: walk lines until the closing
sentinel, reporting whether a line starts with `property:`.  `none`
models the TypeError thrown when no closing sentinel exists (the
JavaScript loop runs past the end of the array). -/
def fieldScan (prop : Str) : List Str → Option Bool
  | [] => none
  | l :: ls =>
    if l = "---".data then some false
    else if (prop ++ [':']).isPrefixOf l then some true
    else fieldScan prop ls

/-- part_000 `exists`: the scan starts at index 1. -/
def existsField (prop : Str) (lines : List Str) : Option Bool :=
  fieldScan prop lines.tail

/-- The pure transform that `vault.process` applies to an existing
coauthor note in part_000 `populateAuthorNotes` — the spec's
`upsertField` for the dblp identity field.  `none` models the TypeError
from the unclosed-block field scan.  Note the `...content` spread in the
no-block branch: spreading a JavaScript string yields its characters, so
every character of the original content becomes a line of its own. -/
def processContent (profileUrl content : Str) : Option Str :=
  match splitL content with
  | [] =>
    some ("---".data ++ '\n' :: "dblp: ".data ++ profileUrl ++
      '\n' :: "---".data ++ ['\n'])
  | l₀ :: rest =>
    if hasProperties (l₀ :: rest) then
      match existsField "dblp".data (l₀ :: rest) with
      | none => none
      | some true => some (unlines (l₀ :: rest))
      | some false =>
        some (unlines (l₀ :: ("dblp: ".data ++ profileUrl) :: rest))
    else
      some (unlines (["---".data, "dblp: ".data ++ profileUrl, "---".data]
        ++ content.map (fun ch => [ch])))

/-- The upsert never touches a note whose metadata block already records
the field (first-write-wins). -/
theorem processContent_keeps_field (url content : Str)
    (hp : hasProperties (splitL content) = true)
    (h : existsField "dblp".data (splitL content) = some true) :
    processContent url content = some content := by
  unfold processContent
  cases hs : splitL content with
  | nil => exact absurd hs (splitL_ne_nil content)
  | cons l₀ rest =>
    rw [hs] at hp h
    simp only [hp, h, if_true]
    show some (unlines (l₀ :: rest)) = some content
    rw [← hs, unlines_splitL]

/-- When a block exists and the field is absent, the field line lands at
position 1, right after the opening sentinel. -/
theorem processContent_inserts_at_one (url content : Str) (l₀ : Str)
    (rest : List Str)
    (hs : splitL content = l₀ :: rest)
    (hp : hasProperties (l₀ :: rest) = true)
    (h : existsField "dblp".data (l₀ :: rest) = some false) :
    processContent url content
      = some (unlines (l₀ :: ("dblp: ".data ++ url) :: rest)) := by
  unfold processContent
  rw [hs]
  simp only [hp, h, if_true]

/-- C5: the no-block branch of the structured-field upsert.  The code
spreads the original content *string* (`...content`), so the body "ab"
is emitted as two one-character lines rather than as the original body
line — the synthesized note is not the field block wrapped around the
original content. -/
theorem claim_C5 :
    processContent "u".data "ab".data
      = some "---\ndblp: u\n---\na\nb".data ∧
    (some "---\ndblp: u\n---\na\nb".data : Option Str)
      ≠ some "---\ndblp: u\n---\nab".data := by
  constructor
  · rfl
  · decide

/-! ## Identity links (part_000 processURL / getLinks) -/

/-- The mutable `links` object of `getLinks`. -/
structure Links where
  orcid : Str
  wikipedia : Str
  mgp : Str
deriving DecidableEq, Repr

/-- part_000 `processURL`: classify one URL by domain substring; a later
URL of the same domain overwrites an earlier one. -/
def processURL (links : Links) (url : Str) : Links :=
  if hasSub "orcid.org".data url then { links with orcid := url }
  else if hasSub "wikipedia.org".data url then { links with wikipedia := url }
  else if hasSub "mathgenealogy.org".data url then { links with mgp := url }
  else links

/-- The `links` object after folding all profile URLs (single URLs and
URL arrays are both handled, as in `getLinks`). -/
def linksOf (d : DblpPerson) : Links :=
  match d.person.url with
  | none => ⟨[], [], []⟩
  | some (.one u) => processURL ⟨[], [], []⟩ u
  | some (.many us) => us.foldl processURL ⟨[], [], []⟩

/-- part_000 `getLinks`: `Object.entries(links)` in declaration order,
dropping empty values, rendered as `key: value` lines. -/
def getLinks (d : DblpPerson) : List Str :=
  (([("orcid".data, (linksOf d).orcid), ("wikipedia".data, (linksOf d).wikipedia),
      ("mgp".data, (linksOf d).mgp)].filter (fun kv => kv.2 ≠ [])).map
    (fun kv => kv.1 ++ ": ".data ++ kv.2))

/-! ## The organization matcher (part_000 getAffiliations) -/

/-- JavaScript `Map.set`: update in place when the key exists (keeping
its position), append otherwise. -/
def mapSet (m : List (Str × Str)) (k val : Str) : List (Str × Str) :=
  if m.any (fun e => e.1 = k) then
    m.map (fun e => if e.1 = k then (k, val) else e)
  else m ++ [(k, val)]

/-- JavaScript `Map.get`. -/
def mapGet (m : List (Str × Str)) (k : Str) : Option Str :=
  (m.find? (fun e => e.1 = k)).map (·.2)

/-- JavaScript `x || d` over an optional string: the default when the
value is missing or empty (falsy). -/
def jsOr (x : Option Str) (d : Str) : Str :=
  match x with
  | some s => if s = [] then d else s
  | none => d

/-- The files directly inside a folder: path prefix `dir/` and a
separator-free remainder; the remainder is the Obsidian `file.name`,
extension included. -/
def childrenOf (v : Vault) (dir : Str) : List (Str × Str) :=
  v.files.filterMap (fun f =>
    if (dir ++ ['/']).isPrefixOf f.1 ∧ '/' ∉ f.1.drop (dir.length + 1) then
      some (f.1.drop (dir.length + 1), f.2)
    else none)

/-- Obsidian `file.basename`: the name with its `.md` extension
dropped. -/
def basenameOf (n : Str) : Str :=
  if ".md".data.isSuffixOf n then n.take (n.length - 3) else n

/-- part_000 `getAffiliations`: the alias list declared in an
organization note's frontmatter — trimmed lines starting with a dash,
each with the dash stripped and trimmed. -/
def aliasesOf (content : Str) : List Str :=
  match frontmatterInfo content with
  | none => []
  | some fm =>
    (((splitL fm).map jsTrim).filter (fun l => ['-'].isPrefixOf l)).map
      (fun l => jsTrim (l.drop 1))

/-- The alias→canonical catalog: every organization file's basename maps
to itself (the `new Map(...)` constructor), then each file's declared
aliases map to its basename, later writes winning. -/
def buildOrgMap (orgFiles : List (Str × Str)) : List (Str × Str) :=
  orgFiles.foldl
    (fun m f => (aliasesOf f.2).foldl (fun m' a => mapSet m' a (basenameOf f.1)) m)
    (orgFiles.foldl (fun m f => mapSet m (basenameOf f.1) (basenameOf f.1)) [])

/-- The path of a (possibly new) organization note. -/
def orgPath (org : Str) : Str :=
  ORG_DIR ++ '/' :: org ++ ".md".data

/-- The loop body of part_000 `getAffiliations`: query both similarity
indices for one affiliation string; accept only when both heads agree on
the candidate, the FuzzySet similarity is at least 0.75, and the Fuse
score is defined and at most 0.33, resolving through the catalog
(`organizations.get(item) || affil`); in every other case register a
new, empty organization note and resolve to the input itself. -/
def affilStep (env : Env) (keys : List Str) (orgMap : List (Str × Str))
    (acc : Vault × List Str) (org : Str) : Vault × List Str :=
  match env.fuzzy keys org, env.fuse keys org with
  | (bs, bi) :: _, (some sc, item) :: _ =>
    if bi = item ∧ bs ≥ mkRat 3 4 ∧ sc ≤ mkRat 33 100 then
      (acc.1, acc.2 ++ [jsOr (mapGet orgMap item) org])
    else
      ((acc.1.createFile (orgPath org) []).1, acc.2 ++ [org])
  | (_, _) :: _, (none, _) :: _ =>
    ((acc.1.createFile (orgPath org) []).1, acc.2 ++ [org])
  | _, _ =>
    ((acc.1.createFile (orgPath org) []).1, acc.2 ++ [org])

/-- `!note.$.label` — absent or empty. -/
def labelFalsy : Option Str → Bool
  | none => true
  | some s => s = []

/-- The affiliation-note filter: attributes present, type `affiliation`,
label falsy. -/
def isAffilNote (nt : DblpNote) : Bool :=
  match nt.attrs with
  | none => false
  | some a => a.typ = "affiliation".data && labelFalsy a.label

/-- The truncated affiliation strings extracted from the profile's notes
(single note or list). -/
def dblpAffsOf (note : Option (OneOrMany DblpNote)) : List Str :=
  match note with
  | none => []
  | some (.one nt) => if isAffilNote nt then [sliceAtFirstComma nt.text] else []
  | some (.many l) =>
    (l.filter isAffilNote).map (fun nt => sliceAtFirstComma nt.text)

/-- part_000 `getAffiliations`: when the profile has a `note` field,
snapshot the organization catalog from the Organizations folder, index
it, and resolve each truncated affiliation through `affilStep`; without
a `note` field nothing happens. -/
def getAffiliations (env : Env) (v : Vault) (d : DblpPerson) :
    Vault × List Str :=
  match d.person.note with
  | none => (v, [])
  | some _ =>
    (dblpAffsOf d.person.note).foldl
      (affilStep env ((buildOrgMap (childrenOf v ORG_DIR)).map (·.1))
        (buildOrgMap (childrenOf v ORG_DIR))) (v, [])

/-! ## The coauthor reconciler (part_000 populateAuthorNotes) -/

/-- `getCoauthorName`/`getCoauthorPid` combined: the first `na` entry;
`none` models the TypeError on an empty array. -/
def coPair (c : Coauthor) : Option (Str × Str) :=
  match c.na with
  | .one a => some (a.name, a.pid)
  | .many l => l.head?.map (fun a => (a.name, a.pid))

/-- The coauthor extraction at the head of `populateAuthorNotes`. -/
def coauthorsOf (d : DblpPerson) : Option (List (Str × Str)) :=
  match d.coauthors with
  | none => some []
  | some (.one c) => (coPair c).map (fun p => [p])
  | some (.many l) => l.mapM coPair

/-- The `existingPeople` snapshot: the Obsidian `file.name`s (extension
included) of the notes directly inside the People folder. -/
def peopleNames (v : Vault) : List Str :=
  (childrenOf v PEOPLE_DIR).map (·.1)

/-- The dblp profile URL recorded for a pid. -/
def profileUrlOf (pid : Str) : Str :=
  DBLP_MAIN_URL ++ "/pid/".data ++ pid

/-- The minimal person note `---\ndblp: <url>\n---\n`. -/
def personContent (profileUrl : Str) : Str :=
  "---".data ++ '\n' :: "dblp: ".data ++ profileUrl ++ '\n' :: "---".data ++ ['\n']

/-- One iteration of the `populateAuthorNotes` loop, run against the
`existingPeople` snapshot taken before the loop.  The membership test
compares the bare display name against file names that still carry their
`.md` extension, exactly as the source does. -/
def personStep (names : List Str) (v : Vault) (co : Str × Str) : Option Vault :=
  if co.1 ∈ names then
    match v.lookup (PEOPLE_DIR ++ '/' :: co.1 ++ ".md".data) with
    | none => some v
    | some content =>
      (processContent (profileUrlOf co.2) content).map
        (v.write (PEOPLE_DIR ++ '/' :: co.1 ++ ".md".data))
  else
    some (v.createFile (PEOPLE_DIR ++ '/' :: co.1 ++ ".md".data)
      (personContent (profileUrlOf co.2))).1

/-- part_000 `populateAuthorNotes`. -/
def populateAuthorNotes (v : Vault) (d : DblpPerson) : Option Vault :=
  match coauthorsOf d with
  | none => none
  | some coauthors => coauthors.foldlM (personStep (peopleNames v)) v

/-! ## The subject-note merge and the top-level fetch (part_000 fetch) -/

/-- part_000 `populatePublicationNotes` record extraction: a single
wrapper when the count attribute is one, an array otherwise; the
wrapper-shape filter is the identity on wrapped entries. -/
def extractPubs (d : DblpPerson) : List Publication :=
  if d.n = 1 then
    match d.r with
    | .inl (.inproc p) => [p]
    | .inl (.article p) => [p]
    | .inr _ => []
  else
    match d.r with
    | .inl _ => []
    | .inr entries =>
      entries.map (fun e => match e with | .inproc p => p | .article p => p)

/-- part_000 `populatePublicationNotes`. -/
def populatePublicationNotes (env : Env) (v : Vault) (d : DblpPerson) :
    Option Vault :=
  createPublicationMdFiles env v (extractPubs d)

/-- The filter dropping the plugin-owned subject-note lines. -/
def keepLine (l : Str) : Bool :=
  !("Last DBLP fetch:".data.isPrefixOf l) &&
    !("affiliation::".data.isPrefixOf l)

/-- The pure transform `vault.process` applies to the subject note at the
end of `fetch`: drop links already textually present, splice the rest in
at position 1, drop the owned lines, append one affiliation line per
resolved organization, stamp the timestamp, and collapse newline runs. -/
def mergeSubject (links affils : List Str) (now : Str) (data : Str) : Str :=
  collapseNL
    (unlines
      ((((splitL data).take 1 ++ links.filter (fun l => !hasSub l data) ++
          (splitL data).drop 1).filter keepLine) ++
        affils.map (fun a => "affiliation:: [[".data ++ a ++ "]]".data)) ++
      "\n\nLast DBLP fetch: ".data ++ now)

/-- The profile XML URLs tried by `fetch` for a stored dblp URL. -/
def profileUrls (dblpUrl : Str) : List Str :=
  DBLP_BASE_URLS.map (fun b =>
    b ++ "/pid/".data ++ (splitSub "/pid/".data dblpUrl).getLastD [] ++
      ".xml".data)

/-- part_000 `fetch` (the spec's `syncProfile`): fetch the profile XML
through the base-URL retry loop; abort before any note mutation when no
usable text was obtained; parse; then run the publication reconciler,
the coauthor reconciler, the organization matcher, and the final
subject-note merge, in that order.  `none` models an uncaught
exception. -/
def fetchRun (env : Env) (now : Str) (dblpUrl subject : Str) (v : Vault) :
    Option Vault :=
  if fetchFirst env.http (profileUrls dblpUrl) = [] then some v
  else
    match env.parse (fetchFirst env.http (profileUrls dblpUrl)) with
    | none => none
    | some d =>
      match populatePublicationNotes env v d with
      | none => none
      | some v₁ =>
        match populateAuthorNotes v₁ d with
        | none => none
        | some v₂ =>
          some ((getAffiliations env v₂ d).1.write subject
            (mergeSubject (getLinks d) (getAffiliations env v₂ d).2 now
              (((getAffiliations env v₂ d).1.lookup subject).getD [])))

/-! ## Claim C3: the matcher conjunction -/

/-- C3.  Part one: when both index heads agree on a candidate and both
thresholds pass, the affiliation resolves through the catalog to the
agreed candidate's canonical name and no organization note is
registered.  Part two: in every other case — either index empty, a
missing Fuse score, disagreeing candidates, or a failed threshold — a
new organization note is registered at the affiliation's own path and
the affiliation resolves to the input string itself, never to another
catalog entry. -/
theorem claim_C3 :
    (∀ (env : Env) (keys : List Str) (orgMap : List (Str × Str)) (v : Vault)
        (out : List Str) (org : Str) (bs : ℚ) (bi : Str) (sc : ℚ) (item : Str)
        (fzTail : List (ℚ × Str)) (fuTail : List (Option ℚ × Str)),
      env.fuzzy keys org = (bs, bi) :: fzTail →
      env.fuse keys org = (some sc, item) :: fuTail →
      bi = item → bs ≥ mkRat 3 4 → sc ≤ mkRat 33 100 →
      affilStep env keys orgMap (v, out) org
        = (v, out ++ [jsOr (mapGet orgMap item) org])) ∧
    (∀ (env : Env) (keys : List Str) (orgMap : List (Str × Str)) (v : Vault)
        (out : List Str) (org : Str),
      ¬(∃ (bs : ℚ) (bi : Str) (sc : ℚ) (item : Str) (fzTail : List (ℚ × Str))
          (fuTail : List (Option ℚ × Str)),
          env.fuzzy keys org = (bs, bi) :: fzTail ∧
          env.fuse keys org = (some sc, item) :: fuTail ∧
          bi = item ∧ bs ≥ mkRat 3 4 ∧ sc ≤ mkRat 33 100) →
      affilStep env keys orgMap (v, out) org
        = ((v.createFile (orgPath org) []).1, out ++ [org])) := by
  constructor
  · intro env keys orgMap v out org bs bi sc item fzTail fuTail hfz hfu h1 h2 h3
    unfold affilStep
    rw [hfz, hfu]
    simp only [if_pos (And.intro h1 (And.intro h2 h3))]
  · intro env keys orgMap v out org h
    unfold affilStep
    cases hfz : env.fuzzy keys org with
    | nil => rfl
    | cons p fzTail =>
      obtain ⟨bs, bi⟩ := p
      cases hfu : env.fuse keys org with
      | nil => rfl
      | cons q fuTail =>
        obtain ⟨osc, item⟩ := q
        cases osc with
        | none => rfl
        | some sc =>
          have hno : ¬(bi = item ∧ bs ≥ mkRat 3 4 ∧ sc ≤ mkRat 33 100) := by
            rintro ⟨h1, h2, h3⟩
            exact h ⟨bs, bi, sc, item, fzTail, fuTail, hfz, hfu, h1, h2, h3⟩
          simp only [if_neg hno]

/-- Instantiation of `claim_C3`, rejecting branch: both indices return
nothing for an unknown affiliation, so a new organization note is
registered and the input resolves to itself. -/
theorem claim_C3_witness :
    affilStep ⟨fun _ => none, fun _ => none, fun _ _ => [], fun _ _ => []⟩
        [] [] (⟨[]⟩, []) "Example University".data
      = (((Vault.mk []).createFile (orgPath "Example University".data) []).1,
          ["Example University".data]) :=
  claim_C3.2 _ _ _ _ _ _ (by
    rintro ⟨bs, bi, sc, item, fzTail, fuTail, hfz, -⟩
    simp at hfz)

/-! ## Claim C8: a failed profile fetch aborts before any mutation -/

/-- C8: when the profile fetch fails at every base URL or yields only
empty text, the run returns with the vault exactly as it was — no
publication, person, or organization note is created or modified and the
subject note is untouched. -/
theorem claim_C8 (env : Env) (now dblpUrl subject : Str) (v : Vault)
    (h : fetchFirst env.http (profileUrls dblpUrl) = []) :
    fetchRun env now dblpUrl subject v = some v := by
  unfold fetchRun
  rw [if_pos h]

/-- Instantiation of `claim_C8` with an environment whose fetches all
fail. -/
theorem claim_C8_witness :
    fetchRun ⟨fun _ => none, fun _ => none, fun _ _ => [], fun _ _ => []⟩
        "t".data "https://dblp.org/pid/x/Y".data "People/X.md".data
        ⟨[("People/X.md".data, "dblp: u".data)]⟩
      = some ⟨[("People/X.md".data, "dblp: u".data)]⟩ :=
  claim_C8 _ _ _ _ _ rfl

/-! ## Claim C1: idempotence of the top-level sync -/

/-- The lines of a note with the `Last DBLP fetch:` timestamp lines
removed. -/
def dropTsLines (c : Str) : List Str :=
  (splitL c).filter (fun l => !("Last DBLP fetch:".data.isPrefixOf l))

/-- The lines of a note with the timestamp lines and the blank lines
removed — the normalization under which the amended idempotence claim
compares subject notes. -/
def coreLines (c : Str) : List Str :=
  (splitL c).filter
    (fun l => !("Last DBLP fetch:".data.isPrefixOf l) && !l.isEmpty)

/-- A profile with one affiliation note and nothing else. -/
def cexProfile : DblpPerson :=
  { person := { note := some (.one ⟨some ⟨"affiliation".data, none⟩, "OrgA".data⟩),
                url := none },
    coauthors := none, r := .inr [], n := 0, name := "Alice".data }

/-- An environment serving `cexProfile`, whose similarity indices return
an exact match with perfect scores for a catalogued query and nothing
otherwise. -/
def cexEnv : Env :=
  { http := fun u =>
      if u = "https://dblp.org/pid/a/Alice.xml".data then some "xml".data
      else none,
    parse := fun s => if s = "xml".data then some cexProfile else none,
    fuzzy := fun ks q => if q ∈ ks then [(1, q)] else [],
    fuse := fun ks q => if q ∈ ks then [(some 0, q)] else [] }

def cexSubject : Str := "People/Alice.md".data

def cexUrl : Str := "https://dblp.org/pid/a/Alice".data

def cexV0 : Vault := ⟨[(cexSubject, "Body".data)]⟩

/-- The vault after run 1: the organization note is registered and the
subject note gains its affiliation line and timestamp. -/
def cexV1 : Vault :=
  ⟨[(cexSubject, "Body\naffiliation:: [[OrgA]]\n\nLast DBLP fetch: t1".data),
    ("Organizations/OrgA.md".data, [])]⟩

/-- The vault after run 2: identical except that a blank line now
separates the body from the re-appended affiliation block — a difference
beyond the timestamp line. -/
def cexV2 : Vault :=
  ⟨[(cexSubject, "Body\n\naffiliation:: [[OrgA]]\n\nLast DBLP fetch: t2".data),
    ("Organizations/OrgA.md".data, [])]⟩

/-- C1, counterexample: running the sync twice from a concrete initial
state, the subject note after run 2 differs from the note after run 1
even with every timestamp line removed: run 2 moves the blank line that
preceded the old timestamp to a position before the re-appended
affiliation block. -/
theorem claim_C1_counterexample :
    fetchRun cexEnv "t1".data cexUrl cexSubject cexV0 = some cexV1 ∧
    fetchRun cexEnv "t2".data cexUrl cexSubject cexV1 = some cexV2 ∧
    dropTsLines ((cexV2.lookup cexSubject).getD [])
      ≠ dropTsLines ((cexV1.lookup cexSubject).getD []) :=
  ⟨by decide, by decide, by decide⟩

/-! ## Line algebra for the subject-note merge -/

/-- The nonblank-line filter. -/
def nonblank (l : Str) : Bool := !l.isEmpty

/-- The newline-run collapse only merges blank lines: the nonblank lines
of a string are untouched, whatever the scanner state; moreover a
non-saturated scanner preserves the first line. -/
theorem collapseAux_filter_nonblank (s : Str) : ∀ n,
    (splitL (collapseAux n s)).filter nonblank = (splitL s).filter nonblank ∧
    ((splitL (collapseAux n s)).headI.isEmpty = (splitL s).headI.isEmpty ∧
      ((splitL s).headI.isEmpty = false →
        (splitL (collapseAux n s)).headI = (splitL s).headI) ∨ 2 ≤ n) := by
  induction s with
  | nil => intro n; simp [collapseAux]
  | cons c cs ih =>
    intro n
    by_cases hc : c = '\n'
    · subst hc
      by_cases hn : 2 ≤ n
      · have h1 : collapseAux n ('\n' :: cs) = collapseAux n cs := by
          simp [collapseAux, hn]
        rw [h1]
        refine ⟨?_, Or.inr hn⟩
        rw [(ih n).1, splitL_cons, if_pos rfl, List.filter_cons]
        have hnb : nonblank ([] : Str) = false := rfl
        rw [hnb]
        simp
      · have h1 : collapseAux n ('\n' :: cs) = '\n' :: collapseAux (n + 1) cs := by
          simp [collapseAux, hn]
        rw [h1]
        constructor
        · rw [splitL_cons, splitL_cons, if_pos rfl, if_pos rfl,
            List.filter_cons, List.filter_cons]
          have hnb : nonblank ([] : Str) = false := rfl
          rw [hnb]
          simp only [Bool.false_eq_true, if_false]
          exact (ih (n + 1)).1
        · left
          rw [splitL_cons, splitL_cons, if_pos rfl, if_pos rfl]
          simp [List.headI]
    · have h1 : collapseAux n (c :: cs) = c :: collapseAux 0 cs := by
        simp [collapseAux, hc]
      rw [h1]
      obtain ⟨ih1, ih2⟩ := ih 0
      have ih2' := ih2.resolve_right (by omega)
      obtain ⟨ihh, ihh'⟩ := ih2'
      rw [splitL_cons, splitL_cons, if_neg hc, if_neg hc]
      cases h2 : splitL (collapseAux 0 cs) with
      | nil => exact absurd h2 (splitL_ne_nil _)
      | cons l₂ ls₂ =>
        cases h3 : splitL cs with
        | nil => exact absurd h3 (splitL_ne_nil _)
        | cons l₃ ls₃ =>
          rw [h2, h3] at ih1 ihh ihh'
          simp only [List.headI, List.tail_cons] at ihh ihh' ⊢
          constructor
          · simp only [List.filter_cons] at ih1 ⊢
            have hcnb : nonblank (c :: l₂) = true := by simp [nonblank]
            have hcnb' : nonblank (c :: l₃) = true := by simp [nonblank]
            rw [hcnb, hcnb']
            simp only [if_pos rfl]
            by_cases hl₂ : l₂.isEmpty
            · have hl₃ : l₃.isEmpty = true := by rw [← ihh]; simpa using hl₂
              have e₂ : l₂ = [] := by simpa [List.isEmpty_iff] using hl₂
              have e₃ : l₃ = [] := by simpa [List.isEmpty_iff] using hl₃
              subst e₂
              subst e₃
              have hnb : nonblank ([] : Str) = false := rfl
              rw [hnb] at ih1
              simp only [Bool.false_eq_true, if_false] at ih1
              rw [ih1]
            · have hl₂' : l₂.isEmpty = false := by simpa using hl₂
              have hl₃ : l₃.isEmpty = false := by rw [← ihh]; exact hl₂'
              have heq : l₂ = l₃ := ihh' hl₃
              subst heq
              have hnb : nonblank l₂ = true := by simp [nonblank, hl₂']
              rw [hnb] at ih1
              simp only [if_pos rfl] at ih1
              have := List.tail_eq_of_cons_eq ih1
              rw [this]
          · left
            constructor
            · simp [List.isEmpty]
            · intro _
              by_cases hl₃ : l₃.isEmpty
              · have hl₂ : l₂.isEmpty = true := by rw [ihh]; simpa using hl₃
                have e₂ : l₂ = [] := by simpa [List.isEmpty_iff] using hl₂
                have e₃ : l₃ = [] := by simpa [List.isEmpty_iff] using hl₃
                rw [e₂, e₃]
              · have heq : l₂ = l₃ := ihh' (by simpa using hl₃)
                rw [heq]

/-- The blank-filtered lines of a collapsed string. -/
theorem collapseNL_filter_nonblank (s : Str) :
    (splitL (collapseNL s)).filter nonblank = (splitL s).filter nonblank :=
  (collapseAux_filter_nonblank s 0).1

/-- Splitting a joined nonempty block followed by an explicit newline. -/
theorem splitL_unlines_append (Y : List Str) (z : Str)
    (hne : Y ≠ []) (hnl : ∀ l ∈ Y, '\n' ∉ l) :
    splitL (unlines Y ++ '\n' :: z) = Y ++ splitL z := by
  induction Y with
  | nil => exact absurd rfl hne
  | cons y ys ih =>
    cases ys with
    | nil =>
      rw [show unlines [y] = y from rfl, splitL_append_nl y z (hnl y (by simp))]
      rfl
    | cons y' ys' =>
      rw [show unlines (y :: y' :: ys') = y ++ '\n' :: unlines (y' :: ys')
          from rfl,
        List.append_assoc, List.cons_append,
        splitL_append_nl y _ (hnl y (by simp)),
        ih (by simp) (fun l hl => hnl l (by simp [hl]))]
      rfl

/-- The timestamp-free test on a line. -/
def tsOkLine (l : Str) : Bool := !("Last DBLP fetch:".data.isPrefixOf l)

theorem coreLines_eq (c : Str) :
    coreLines c = ((splitL c).filter nonblank).filter tsOkLine := by
  unfold coreLines
  rw [List.filter_filter]
  apply List.filter_congr'
  intro l _
  rfl

/-- A rendered affiliation line is nonblank, survives the timestamp
filter, and is dropped by the owned-line filter. -/
theorem affLine_facts (a : Str) :
    nonblank ("affiliation:: [[".data ++ a ++ "]]".data) = true ∧
    tsOkLine ("affiliation:: [[".data ++ a ++ "]]".data) = true ∧
    keepLine ("affiliation:: [[".data ++ a ++ "]]".data) = false := by
  have hsh : "affiliation:: [[".data ++ a ++ "]]".data
      = 'a' :: ("ffiliation:: [[".data ++ a ++ "]]".data) := rfl
  refine ⟨by rw [hsh]; rfl, ?_, ?_⟩
  · rw [hsh]
    unfold tsOkLine
    rw [isPrefixOf_cons_ne _ _ _ _ (by decide)]
    rfl
  · rw [hsh]
    unfold keepLine
    rw [isPrefixOf_cons_ne _ _ _ _ (by decide)]
    have hpre : "affiliation::".data.isPrefixOf
        ('a' :: ("ffiliation:: [[".data ++ a ++ "]]".data)) = true := by
      have hsh2 : ('a' :: ("ffiliation:: [[".data ++ a ++ "]]".data))
          = "affiliation::".data ++ (" [[".data ++ a ++ "]]".data) := by
        simp
      rw [hsh2, List.isPrefixOf_iff_prefix]
      exact ⟨_, rfl⟩
    rw [hpre]
    rfl

/-- The timestamp line is nonblank and fails the timestamp filter. -/
theorem tsLine_facts (now : Str) :
    nonblank ("Last DBLP fetch: ".data ++ now) = true ∧
    tsOkLine ("Last DBLP fetch: ".data ++ now) = false := by
  constructor
  · rfl
  · unfold tsOkLine
    have hsh : "Last DBLP fetch: ".data ++ now
        = "Last DBLP fetch:".data ++ (' ' :: now) := by simp
    rw [hsh]
    rw [show ("Last DBLP fetch:".data.isPrefixOf
        ("Last DBLP fetch:".data ++ (' ' :: now))) = true from by
      rw [List.isPrefixOf_iff_prefix]; exact ⟨_, rfl⟩]
    rfl

/-- A line passing the owned-line filter passes the timestamp filter. -/
theorem keepLine_tsOk (l : Str) (h : keepLine l = true) : tsOkLine l = true := by
  unfold keepLine at h
  unfold tsOkLine
  cases hts : ("Last DBLP fetch:".data.isPrefixOf l) with
  | false => rfl
  | true => rw [hts] at h; simp at h

/-- The normalized (blank- and timestamp-free) lines of a merged subject
note: the filtered spliced original lines followed by the affiliation
block. -/
theorem coreLines_mergeSubject (links affils : List Str) (now data : Str)
    (hlinks : ∀ l ∈ links, '\n' ∉ l)
    (haff : ∀ a ∈ affils, '\n' ∉ a)
    (hnow : '\n' ∉ now) :
    coreLines (mergeSubject links affils now data)
      = (((splitL data).take 1 ++ links.filter (fun l => !hasSub l data) ++
            (splitL data).drop 1).filter (fun l => keepLine l && nonblank l)) ++
          affils.map (fun a => "affiliation:: [[".data ++ a ++ "]]".data) := by
  unfold mergeSubject
  rw [coreLines_eq, collapseNL_filter_nonblank, List.append_assoc]
  have hts : "\n\nLast DBLP fetch: ".data ++ now
      = '\n' :: '\n' :: ("Last DBLP fetch: ".data ++ now) := by simp
  rw [hts]
  set spliced := (splitL data).take 1 ++ links.filter (fun l => !hasSub l data) ++
      (splitL data).drop 1 with hspliced
  set A := affils.map (fun a => "affiliation:: [[".data ++ a ++ "]]".data)
      with hA
  set K := spliced.filter keepLine with hK
  set tsl := "Last DBLP fetch: ".data ++ now with htsl
  have hsplnl : ∀ l ∈ spliced, '\n' ∉ l := by
    intro l hl
    rw [hspliced] at hl
    rcases List.mem_append.mp hl with hl | hl
    · rcases List.mem_append.mp hl with hl | hl
      · exact splitL_no_newline data l (List.mem_of_mem_take hl)
      · exact hlinks l (List.mem_of_mem_filter hl)
    · exact splitL_no_newline data l (List.mem_of_mem_drop hl)
  have hAnl : ∀ l ∈ A, '\n' ∉ l := by
    intro l hl
    rw [hA] at hl
    rcases List.mem_map.mp hl with ⟨a, ha, rfl⟩
    intro hmem
    rcases List.mem_append.mp hmem with hm | hm
    · rcases List.mem_append.mp hm with hm | hm
      · revert hm; decide
      · exact haff a ha hm
    · revert hm; decide
  have htsnl : '\n' ∉ tsl := by
    rw [htsl]
    intro hmem
    rcases List.mem_append.mp hmem with hm | hm
    · revert hm; decide
    · exact hnow hm
  have hA2 : List.filter nonblank A = A := by
    rw [List.filter_eq_self]
    intro a ha
    rw [hA] at ha
    rcases List.mem_map.mp ha with ⟨x, _, rfl⟩
    exact (affLine_facts x).1
  have hA3 : List.filter tsOkLine A = A := by
    rw [List.filter_eq_self]
    intro a ha
    rw [hA] at ha
    rcases List.mem_map.mp ha with ⟨x, _, rfl⟩
    exact (affLine_facts x).2.1
  have htsl1 : nonblank tsl = true := by rw [htsl]; exact (tsLine_facts now).1
  have htsl2 : tsOkLine tsl = false := by rw [htsl]; exact (tsLine_facts now).2
  have hfuse : spliced.filter (fun l => keepLine l && nonblank l)
      = List.filter tsOkLine (List.filter nonblank K) := by
    rw [hK, List.filter_filter, List.filter_filter]
    apply List.filter_congr
    intro l _
    cases hk : keepLine l with
    | false => simp [hk]
    | true => simp [hk, keepLine_tsOk l hk]
  by_cases hY : K ++ A = []
  · rw [hY]
    rcases List.append_eq_nil.mp hY with ⟨hY₁, hY₂⟩
    rw [show unlines [] = [] from rfl, List.nil_append, hY₂, List.append_nil]
    rw [show splitL ('\n' :: '\n' :: tsl) = [] :: [] :: splitL tsl from by
      rw [splitL_cons, if_pos rfl, splitL_cons, if_pos rfl]]
    rw [splitL_no_nl_eq _ htsnl]
    rw [List.filter_cons_of_neg (by decide), List.filter_cons_of_neg (by decide),
      List.filter_cons_of_pos htsl1, List.filter_nil,
      List.filter_cons_of_neg (by simp [htsl2]), List.filter_nil]
    rw [hfuse, hY₁]
    rfl
  · rw [splitL_unlines_append _ _ hY (by
      intro l hl
      rcases List.mem_append.mp hl with hl | hl
      · exact hsplnl l (List.mem_of_mem_filter (hK ▸ hl))
      · exact hAnl l hl)]
    rw [show splitL ('\n' :: tsl) = [] :: splitL tsl from by
      rw [splitL_cons, if_pos rfl]]
    rw [splitL_no_nl_eq _ htsnl]
    rw [List.filter_append (K ++ A) ([] :: [tsl]), List.filter_append K A]
    rw [List.filter_cons_of_neg (by decide), List.filter_cons_of_pos htsl1,
      List.filter_nil, hA2]
    rw [List.filter_append (List.filter nonblank K ++ A) [tsl],
      List.filter_append (List.filter nonblank K) A]
    rw [List.filter_cons_of_neg (by simp [htsl2]), List.filter_nil,
      List.append_nil, hA3]
    rw [hfuse]

/-! ## Path and substring utilities for the idempotence analysis -/

theorem isPrefixOf_self_append (p t : Str) : p.isPrefixOf (p ++ t) = true := by
  induction p with
  | nil => simp [List.isPrefixOf]
  | cons c cs ih => simp [List.isPrefixOf, ih]

theorem drop_spine (l₁ x : Str) (c : Char) :
    (l₁ ++ c :: x).drop (l₁.length + 1) = x := by
  induction l₁ with
  | nil => simp
  | cons a as ih =>
    simp only [List.cons_append, List.length_cons, List.drop_succ_cons]
    exact ih

/-- The organizations folder never contains a path that starts with `P`
(publication and person paths do). -/
theorem org_dir_not_pre (s : Str) :
    (ORG_DIR ++ ['/']).isPrefixOf ('P' :: s) = false := by
  simp [ORG_DIR, List.isPrefixOf]

/-- The people folder never contains a `Papers/...` path. -/
theorem people_dir_not_pre_papers (s : Str) :
    (PEOPLE_DIR ++ ['/']).isPrefixOf ('P' :: 'a' :: s) = false := by
  simp [PEOPLE_DIR, List.isPrefixOf]

/-- The people folder never contains an `Organizations/...` path. -/
theorem people_dir_not_pre_org (s : Str) :
    (PEOPLE_DIR ++ ['/']).isPrefixOf ('O' :: s) = false := by
  simp [PEOPLE_DIR, List.isPrefixOf]

/-- Every classifiable record's folder sits under `Papers/`. -/
theorem pubFolder_shape (pub : Publication) (h : pubKindKnown pub = true) :
    ∃ s, pubFolder pub = 'P' :: 'a' :: s := by
  unfold pubKindKnown at h
  unfold pubFolder
  by_cases h1 : isInProceedings pub
  · rw [if_pos h1]
    exact ⟨_, rfl⟩
  · by_cases h2 : isJournalArticle pub
    · rw [if_neg h1, if_pos h2]
      exact ⟨_, rfl⟩
    · by_cases h3 : isInformalArticle pub
      · rw [if_neg h1, if_neg h2, if_pos h3]
        exact ⟨_, rfl⟩
      · simp [h1, h2, h3] at h

theorem pubPlainPath_shape (pub : Publication) (h : pubKindKnown pub = true) :
    ∃ s, pubPlainPath pub = 'P' :: 'a' :: s := by
  obtain ⟨s, hs⟩ := pubFolder_shape pub h
  exact ⟨s ++ '/' :: sanitize pub.title ++ ".md".data, by
    unfold pubPlainPath
    rw [hs]
    simp⟩

/-- A line of a string occurs in it between two (possibly empty)
surrounding segments. -/
theorem mem_unlines_split (Y : List Str) (l : Str) (h : l ∈ Y) :
    ∃ a b, unlines Y = a ++ l ++ b := by
  induction Y with
  | nil => cases h
  | cons y ys ih =>
    cases ys with
    | nil =>
      rw [List.mem_singleton] at h
      exact ⟨[], [], by simp [unlines, h]⟩
    | cons y' ys' =>
      rcases List.mem_cons.mp h with h | h
      · exact ⟨[], '\n' :: unlines (y' :: ys'), by simp [unlines, h]⟩
      · obtain ⟨a, b, hab⟩ := ih h
        exact ⟨y ++ '\n' :: a, b, by
          rw [show unlines (y :: y' :: ys') = y ++ '\n' :: unlines (y' :: ys')
            from rfl, hab]
          simp⟩

theorem findSubIdx_append_isSome (sep b : Str) (hne : sep ≠ []) :
    ∀ a, (findSubIdx sep (a ++ (sep ++ b))).isSome = true := by
  intro a
  induction a with
  | nil =>
    cases hs : sep with
    | nil => exact absurd hs hne
    | cons c cs =>
      rw [show ([] : Str) ++ ((c :: cs) ++ b) = c :: (cs ++ b) from by simp]
      rw [show findSubIdx (c :: cs) (c :: (cs ++ b)) = some 0 from by
        simp [findSubIdx, show (c :: cs).isPrefixOf (c :: cs ++ b) = true from
          isPrefixOf_self_append (c :: cs) b]]
      rfl
  | cons c cs ih =>
    rw [List.cons_append]
    unfold findSubIdx
    by_cases hp : sep.isPrefixOf (c :: (cs ++ (sep ++ b)))
    · simp [hp]
    · rw [if_neg hp, Option.isSome_map']
      exact ih

/-- A nonempty line of a string is found by the substring search. -/
theorem hasSub_of_mem_splitL (l s : Str) (hl : l ≠ []) (h : l ∈ splitL s) :
    hasSub l s = true := by
  obtain ⟨a, b, hab⟩ := mem_unlines_split (splitL s) l h
  rw [unlines_splitL] at hab
  unfold hasSub
  rw [hab, List.append_assoc]
  exact findSubIdx_append_isSome l b hl a

/-! ## Further vault lemmas -/

theorem Vault.lookup_append (l₁ l₂ : List (Str × Str)) (p : Str) :
    Vault.lookup ⟨l₁ ++ l₂⟩ p
      = (Vault.lookup ⟨l₁⟩ p).or (Vault.lookup ⟨l₂⟩ p) := by
  unfold Vault.lookup
  rw [List.find?_append]
  cases l₁.find? (fun f => f.1 = p) with
  | none => simp
  | some x => simp

theorem Vault.lookup_append_left_some (v : Vault) (l : List (Str × Str))
    (p c : Str) (h : v.lookup p = some c) :
    Vault.lookup ⟨v.files ++ l⟩ p = some c := by
  rw [Vault.lookup_append]
  rw [show Vault.lookup ⟨v.files⟩ p = some c from h]
  rfl

theorem Vault.lookup_append_right_of_none (v : Vault) (l : List (Str × Str))
    (p : Str) (h : v.lookup p = none) :
    Vault.lookup ⟨v.files ++ l⟩ p = Vault.lookup ⟨l⟩ p := by
  rw [Vault.lookup_append]
  rw [show Vault.lookup ⟨v.files⟩ p = none from h]
  rfl

theorem Vault.lookup_append_none (l₁ l₂ : List (Str × Str)) (p : Str)
    (h : Vault.lookup ⟨l₁ ++ l₂⟩ p = none) :
    Vault.lookup ⟨l₁⟩ p = none ∧ Vault.lookup ⟨l₂⟩ p = none := by
  rw [Vault.lookup_append] at h
  cases h₁ : Vault.lookup ⟨l₁⟩ p with
  | some x => rw [h₁] at h; simp [Option.or] at h
  | none => rw [h₁] at h; simpa using h

theorem Vault.lookup_isSome_append_left (v : Vault) (l : List (Str × Str))
    (p : Str) (h : (v.lookup p).isSome = true) :
    (Vault.lookup ⟨v.files ++ l⟩ p).isSome = true := by
  cases hc : v.lookup p with
  | none => rw [hc] at h; simp at h
  | some c => rw [Vault.lookup_append_left_some v l p c hc]; rfl

theorem Vault.lookup_mem (v : Vault) (p c : Str) (h : v.lookup p = some c) :
    (p, c) ∈ v.files := by
  unfold Vault.lookup at h
  cases hf : v.files.find? (fun f => f.1 = p) with
  | none => rw [hf] at h; simp at h
  | some e =>
    rw [hf] at h
    have hm := List.mem_of_find?_eq_some hf
    have hp := List.find?_some hf
    simp only [decide_eq_true_eq] at hp
    simp only [Option.map_some'] at h
    obtain ⟨e₁, e₂⟩ := e
    cases h
    cases hp
    exact hm

theorem Vault.lookup_isSome_mem_path (v : Vault) (p : Str)
    (h : (v.lookup p).isSome = true) : ∃ e ∈ v.files, e.1 = p := by
  cases hc : v.lookup p with
  | none => rw [hc] at h; simp at h
  | some c => exact ⟨(p, c), Vault.lookup_mem v p c hc, rfl⟩

theorem find?_map_replace (files : List (Str × Str)) (p c : Str)
    (h : (files.find? (fun f => f.1 = p)).isSome = true) :
    (files.map (fun f => if f.1 = p then (p, c) else f)).find?
        (fun f => f.1 = p) = some (p, c) := by
  induction files with
  | nil => simp at h
  | cons f fs ih =>
    by_cases hfp : f.1 = p
    · rw [List.map_cons, if_pos hfp]
      exact List.find?_cons_of_pos _ (by simp)
    · rw [List.map_cons, if_neg hfp]
      rw [List.find?_cons_of_neg _ (by simpa using hfp)]
      rw [List.find?_cons_of_neg _ (by simpa using hfp)] at h
      exact ih h

theorem find?_map_replace_ne (files : List (Str × Str)) (p c q : Str)
    (hne : q ≠ p) :
    (files.map (fun f => if f.1 = p then (p, c) else f)).find?
        (fun f => f.1 = q) = files.find? (fun f => f.1 = q) := by
  induction files with
  | nil => rfl
  | cons f fs ih =>
    by_cases hfp : f.1 = p
    · rw [List.map_cons, if_pos hfp]
      rw [List.find?_cons_of_neg _ (by simpa using Ne.symm hne)]
      rw [List.find?_cons_of_neg _ (by simp [hfp]; exact Ne.symm hne)]
      exact ih
    · by_cases hfq : f.1 = q
      · rw [List.map_cons, if_neg hfp]
        rw [List.find?_cons_of_pos _ (by simpa using hfq),
          List.find?_cons_of_pos _ (by simpa using hfq)]
      · rw [List.map_cons, if_neg hfp]
        rw [List.find?_cons_of_neg _ (by simpa using hfq),
          List.find?_cons_of_neg _ (by simpa using hfq)]
        exact ih

theorem Vault.lookup_write_self (v : Vault) (p c : Str) :
    (v.write p c).lookup p = some c := by
  unfold Vault.write
  by_cases h : (v.lookup p).isSome
  · rw [if_pos h]
    show Option.map _ _ = _
    have h' : (v.files.find? (fun f => f.1 = p)).isSome = true := by
      unfold Vault.lookup at h
      rwa [Option.isSome_map'] at h
    rw [show (Vault.mk (v.files.map (fun f => if f.1 = p then (p, c) else f))).files
        = v.files.map (fun f => if f.1 = p then (p, c) else f) from rfl]
    rw [find?_map_replace v.files p c h']
    rfl
  · rw [if_neg h]
    apply Vault.lookup_append_self
    cases hc : v.lookup p with
    | none => rfl
    | some x => rw [hc] at h; simp at h

theorem Vault.lookup_write_ne (v : Vault) (p c q : Str) (h : q ≠ p) :
    (v.write p c).lookup q = v.lookup q := by
  unfold Vault.write
  by_cases hs : (v.lookup p).isSome
  · rw [if_pos hs]
    show Option.map _ _ = _
    rw [show (Vault.mk (v.files.map (fun f => if f.1 = p then (p, c) else f))).files
        = v.files.map (fun f => if f.1 = p then (p, c) else f) from rfl]
    rw [find?_map_replace_ne v.files p c q h]
    rfl
  · rw [if_neg hs]
    exact Vault.lookup_append_ne _ _ _ _ h

theorem Vault.write_isSome_mono (v : Vault) (p c q : Str)
    (h : (v.lookup q).isSome = true) :
    ((v.write p c).lookup q).isSome = true := by
  by_cases hq : q = p
  · subst hq
    rw [Vault.lookup_write_self]
    rfl
  · rw [Vault.lookup_write_ne v p c q hq]
    exact h

/-! ## Folder-listing lemmas -/

theorem childrenOf_mk_append (l₁ l₂ : List (Str × Str)) (dir : Str) :
    childrenOf ⟨l₁ ++ l₂⟩ dir = childrenOf ⟨l₁⟩ dir ++ childrenOf ⟨l₂⟩ dir := by
  unfold childrenOf
  exact List.filterMap_append l₁ l₂ _

theorem childrenOf_eq_nil (l : List (Str × Str)) (dir : Str)
    (h : ∀ e ∈ l, (dir ++ ['/']).isPrefixOf e.1 = false) :
    childrenOf ⟨l⟩ dir = [] := by
  unfold childrenOf
  rw [List.filterMap_eq_nil]
  intro e he
  rw [if_neg]
  rintro ⟨h1, -⟩
  rw [h e he] at h1
  simp at h1

/-- Replacing the content stored at one path changes no listing names. -/
theorem childNames_map_replace (l : List (Str × Str)) (p c : Str) (dir : Str) :
    (childrenOf ⟨l.map (fun f => if f.1 = p then (p, c) else f)⟩ dir).map (·.1)
      = (childrenOf ⟨l⟩ dir).map (·.1) := by
  unfold childrenOf
  rw [List.filterMap_map, List.map_filterMap, List.map_filterMap]
  congr 1
  funext f
  by_cases hfp : f.1 = p
  · by_cases hc : (dir ++ ['/']).isPrefixOf p ∧ '/' ∉ p.drop (dir.length + 1)
    · simp [Function.comp, hfp, hc]
    · simp [Function.comp, hfp, hc]
  · simp [Function.comp, hfp]

/-- Replacing content at a path outside the folder leaves the listing
itself unchanged. -/
theorem childrenOf_map_replace_not_under (l : List (Str × Str)) (p c : Str)
    (dir : Str) (hp : (dir ++ ['/']).isPrefixOf p = false) :
    childrenOf ⟨l.map (fun f => if f.1 = p then (p, c) else f)⟩ dir
      = childrenOf ⟨l⟩ dir := by
  unfold childrenOf
  rw [List.filterMap_map]
  congr 1
  funext f
  by_cases hfp : f.1 = p
  · have hno : ¬(dir ++ ['/'] <+: p) := by
      rintro ⟨t, ht⟩
      rw [← ht, isPrefixOf_self_append] at hp
      simp at hp
    simp [Function.comp, hfp, hno]
  · simp [Function.comp, hfp]

theorem basenameOf_append_md (org : Str) :
    basenameOf (org ++ ".md".data) = org := by
  unfold basenameOf
  rw [if_pos (List.isSuffixOf_iff_suffix.mpr ⟨org, rfl⟩)]
  rw [show (org ++ ".md".data).length - 3 = org.length from by simp]
  exact List.take_left org _

/-! ## The organization catalog under alias-free notes -/

/-- A catalog whose every entry maps a name to itself. -/
def Diag (m : List (Str × Str)) : Prop := ∀ e ∈ m, e.2 = e.1

/-- The basename self-map built by the `new Map(...)` constructor call. -/
def baseMap (files : List (Str × Str)) (init : List (Str × Str)) :
    List (Str × Str) :=
  files.foldl (fun m f => mapSet m (basenameOf f.1) (basenameOf f.1)) init

theorem aliasesOf_nil : aliasesOf [] = [] := rfl

theorem buildOrgMap_no_alias : ∀ (files : List (Str × Str)),
    (∀ e ∈ files, aliasesOf e.2 = []) →
    buildOrgMap files = baseMap files [] := by
  have haux : ∀ (files : List (Str × Str)) (init : List (Str × Str)),
      (∀ e ∈ files, aliasesOf e.2 = []) →
      files.foldl
        (fun m f => (aliasesOf f.2).foldl
          (fun m' a => mapSet m' a (basenameOf f.1)) m) init = init := by
    intro files
    induction files with
    | nil => intro init _; rfl
    | cons f fs ih =>
      intro init h
      rw [List.foldl_cons, h f (by simp)]
      exact ih init (fun e he => h e (by simp [he]))
  intro files h
  unfold buildOrgMap baseMap
  exact haux files _ h

theorem mapSet_keys_iff (m : List (Str × Str)) (b val k : Str) :
    k ∈ (mapSet m b val).map (·.1) ↔ k ∈ m.map (·.1) ∨ k = b := by
  unfold mapSet
  by_cases hany : m.any (fun e => e.1 = b)
  · rw [if_pos hany]
    have hkeys : (m.map (fun e => if e.1 = b then (b, val) else e)).map (·.1)
        = m.map (·.1) := by
      rw [List.map_map]
      apply List.map_congr_left
      intro e _
      by_cases h : e.1 = b <;> simp [h]
    rw [hkeys]
    have hb : b ∈ m.map (·.1) := by
      rcases List.any_eq_true.mp hany with ⟨e, he, hp⟩
      simp only [decide_eq_true_eq] at hp
      exact List.mem_map.mpr ⟨e, he, hp⟩
    constructor
    · exact Or.inl
    · rintro (h | rfl)
      · exact h
      · exact hb
  · rw [if_neg hany, List.map_append]
    simp

theorem mapSet_diag (m : List (Str × Str)) (b : Str) (h : Diag m) :
    Diag (mapSet m b b) := by
  unfold mapSet
  by_cases hany : m.any (fun e => e.1 = b)
  · rw [if_pos hany]
    intro e he
    rcases List.mem_map.mp he with ⟨e', he', rfl⟩
    by_cases hb : e'.1 = b
    · simp [hb]
    · simpa [hb] using h e' he'
  · rw [if_neg hany]
    intro e he
    rcases List.mem_append.mp he with he | he
    · exact h e he
    · rw [List.mem_singleton] at he
      simp [he]

theorem baseMap_diag : ∀ (files init : List (Str × Str)), Diag init →
    Diag (baseMap files init) := by
  intro files
  induction files with
  | nil => intro init h; exact h
  | cons f fs ih =>
    intro init h
    unfold baseMap
    rw [List.foldl_cons]
    exact ih _ (mapSet_diag init _ h)

theorem baseMap_keys_iff : ∀ (files init : List (Str × Str)) (k : Str),
    k ∈ (baseMap files init).map (·.1)
      ↔ k ∈ init.map (·.1) ∨ ∃ f ∈ files, k = basenameOf f.1 := by
  intro files
  induction files with
  | nil => intro init k; simp [baseMap]
  | cons f fs ih =>
    intro init k
    unfold baseMap
    rw [List.foldl_cons]
    rw [show List.foldl _ (mapSet init (basenameOf f.1) (basenameOf f.1)) fs
        = baseMap fs (mapSet init (basenameOf f.1) (basenameOf f.1)) from rfl]
    rw [ih, mapSet_keys_iff]
    simp only [List.mem_cons]
    constructor
    · rintro ((h | h) | ⟨g, hg, rfl⟩)
      · exact Or.inl h
      · exact Or.inr ⟨f, Or.inl rfl, h⟩
      · exact Or.inr ⟨g, Or.inr hg, rfl⟩
    · rintro (h | ⟨g, (rfl | hg), rfl⟩)
      · exact Or.inl (Or.inl h)
      · exact Or.inl (Or.inr rfl)
      · exact Or.inr ⟨g, hg, rfl⟩

theorem mapGet_diag_mem (m : List (Str × Str)) (k : Str) (hd : Diag m)
    (hk : k ∈ m.map (·.1)) : mapGet m k = some k := by
  unfold mapGet
  rcases List.mem_map.mp hk with ⟨e, he, h1⟩
  have hsome : (m.find? (fun f => f.1 = k)).isSome = true :=
    List.find?_isSome.mpr ⟨e, he, by simpa using h1⟩
  cases hf : m.find? (fun f => f.1 = k) with
  | none => rw [hf] at hsome; simp at hsome
  | some x =>
    have hx1 : x.1 = k := by simpa using List.find?_some hf
    have hx2 : x.2 = x.1 := hd x (List.mem_of_find?_eq_some hf)
    simp [hx2, hx1]

theorem jsOr_self (x : Str) : jsOr (some x) x = x := by
  simp [jsOr]

/-! ## The matcher loop under an exact-match index -/

theorem affilStep_accept (env : Env) (keys : List Str) (m : List (Str × Str))
    (v : Vault) (out : List Str) (org : Str)
    (hfz : env.fuzzy keys org = [(1, org)])
    (hfu : env.fuse keys org = [(some 0, org)])
    (hget : mapGet m org = some org) :
    affilStep env keys m (v, out) org = (v, out ++ [org]) := by
  unfold affilStep
  rw [hfz, hfu]
  have hge : ((1 : ℚ) ≥ mkRat 3 4) := by decide
  have hle : ((0 : ℚ) ≤ mkRat 33 100) := by decide
  simp only [hget, jsOr_self]
  rw [if_pos (And.intro trivial (And.intro hge hle))]

theorem affilStep_reject (env : Env) (keys : List Str) (m : List (Str × Str))
    (v : Vault) (out : List Str) (org : Str)
    (hfz : env.fuzzy keys org = []) :
    affilStep env keys m (v, out) org
      = ((v.createFile (orgPath org) []).1, out ++ [org]) := by
  unfold affilStep
  rw [hfz]

theorem orgFold_run1 (env : Env) (keys : List Str) (m : List (Str × Str))
    (hget : ∀ k, k ∈ keys → mapGet m k = some k)
    (hfz : ∀ q, q ∈ keys → env.fuzzy keys q = [(1, q)])
    (hfu : ∀ q, q ∈ keys → env.fuse keys q = [(some 0, q)])
    (hmiss : ∀ q, q ∉ keys → env.fuzzy keys q = []) :
    ∀ (orgs : List Str) (v : Vault) (out : List Str),
    ∃ ext,
      orgs.foldl (affilStep env keys m) (v, out) = (⟨v.files ++ ext⟩, out ++ orgs) ∧
      (∀ e ∈ ext, (∃ org, org ∈ orgs ∧ org ∉ keys ∧ e = (orgPath org, ([] : Str)))
        ∧ v.lookup e.1 = none) ∧
      (∀ org ∈ orgs, org ∉ keys →
        (Vault.lookup ⟨v.files ++ ext⟩ (orgPath org)).isSome = true) := by
  intro orgs
  induction orgs with
  | nil =>
    intro v out
    refine ⟨[], by simp, by simp, by simp⟩
  | cons org orgs ih =>
    intro v out
    rw [List.foldl_cons]
    by_cases hk : org ∈ keys
    · rw [affilStep_accept env keys m v out org (hfz org hk) (hfu org hk)
        (hget org hk)]
      obtain ⟨ext, heq, hmem, hpost⟩ := ih v (out ++ [org])
      refine ⟨ext, by rw [heq]; simp, ?_, ?_⟩
      · intro e he
        obtain ⟨⟨o, ho, honk, hoe⟩, hlook⟩ := hmem e he
        exact ⟨⟨o, by simp [ho], honk, hoe⟩, hlook⟩
      · intro o ho honk
        rcases List.mem_cons.mp ho with rfl | ho
        · exact absurd hk honk
        · exact hpost o ho honk
    · rw [affilStep_reject env keys m v out org (hmiss org hk)]
      cases hcf : v.lookup (orgPath org) with
      | some c =>
        rw [Vault.createFile_occupied v _ [] c hcf]
        obtain ⟨ext, heq, hmem, hpost⟩ := ih v (out ++ [org])
        refine ⟨ext, by rw [heq]; simp, ?_, ?_⟩
        · intro e he
          obtain ⟨⟨o, ho, honk, hoe⟩, hlook⟩ := hmem e he
          exact ⟨⟨o, by simp [ho], honk, hoe⟩, hlook⟩
        · intro o ho honk
          rcases List.mem_cons.mp ho with rfl | ho
          · exact Vault.lookup_isSome_append_left v ext _ (by rw [hcf]; rfl)
          · exact hpost o ho honk
      | none =>
        rw [Vault.createFile_free v _ [] hcf]
        obtain ⟨ext, heq, hmem, hpost⟩ :=
          ih ⟨v.files ++ [(orgPath org, [])]⟩ (out ++ [org])
        refine ⟨(orgPath org, []) :: ext, by rw [heq]; simp, ?_, ?_⟩
        · intro e he
          rcases List.mem_cons.mp he with rfl | he
          · exact ⟨⟨org, by simp, hk, rfl⟩, hcf⟩
          · obtain ⟨⟨o, ho, honk, hoe⟩, hlook⟩ := hmem e he
            exact ⟨⟨o, by simp [ho], honk, hoe⟩,
              (Vault.lookup_append_none v.files [(orgPath org, [])] e.1 hlook).1⟩
        · intro o ho honk
          rcases List.mem_cons.mp ho with rfl | ho
          · rw [Vault.lookup_append_right_of_none v _ _ hcf]
            rw [show Vault.lookup ⟨(orgPath o, ([] : Str)) :: ext⟩ (orgPath o)
                = some [] from by
              unfold Vault.lookup
              rw [List.find?_cons_of_pos _ (by simp)]
              rfl]
            rfl
          · have := hpost o ho honk
            rwa [show (v.files ++ [(orgPath org, ([] : Str))]) ++ ext
                = v.files ++ (orgPath org, ([] : Str)) :: ext from by simp] at this

theorem orgFold_run2 (env : Env) (keys : List Str) (m : List (Str × Str))
    (hget : ∀ k, k ∈ keys → mapGet m k = some k)
    (hfz : ∀ q, q ∈ keys → env.fuzzy keys q = [(1, q)])
    (hfu : ∀ q, q ∈ keys → env.fuse keys q = [(some 0, q)]) :
    ∀ (orgs : List Str) (v : Vault) (out : List Str),
    (∀ org ∈ orgs, org ∈ keys) →
    orgs.foldl (affilStep env keys m) (v, out) = (v, out ++ orgs) := by
  intro orgs
  induction orgs with
  | nil => intro v out _; simp
  | cons org orgs ih =>
    intro v out h
    have hk : org ∈ keys := h org (by simp)
    rw [List.foldl_cons,
      affilStep_accept env keys m v out org (hfz org hk) (hfu org hk) (hget org hk),
      ih v (out ++ [org]) (fun o ho => h o (by simp [ho]))]
    simp

/-! ## The publication loop across the two runs -/

theorem foldPubs_run1 (env : Env) : ∀ (l : List Publication) (v : Vault),
    (∀ pub ∈ l, v.lookup (pubPlainPath pub) = none) →
    List.Pairwise (fun a b => pubPlainPath a ≠ pubPlainPath b) l →
    ∃ ext, l.foldlM (createPubStep env) v = some ⟨v.files ++ ext⟩ ∧
      (∀ e ∈ ext, ∃ pub, pub ∈ l ∧ e.1 = pubPlainPath pub) ∧
      (∀ pub ∈ l, fetchFirst env.http (bibUrls pub.key) ≠ [] →
        Vault.lookup ⟨ext⟩ (pubPlainPath pub)
          = some (pubContent (jsTrim pub.key)
              (fetchFirst env.http (bibUrls pub.key)) pub.author)) := by
  intro l
  induction l with
  | nil =>
    intro v _ _
    exact ⟨[], by simp, by simp, by simp⟩
  | cons pub l ih =>
    intro v hfree hpw
    obtain ⟨hhead, htail⟩ := List.pairwise_cons.mp hpw
    cases hcit : fetchFirst env.http (bibUrls pub.key) with
    | nil =>
      have hstep : createPubStep env v pub = some v := by
        simp [createPubStep, hcit]
      obtain ⟨ext, heq, hmem, hpost⟩ :=
        ih v (fun p hp => hfree p (by simp [hp])) htail
      refine ⟨ext, ?_, ?_, ?_⟩
      · rw [List.foldlM_cons, hstep]
        show l.foldlM (createPubStep env) v = _
        exact heq
      · intro e he
        obtain ⟨p, hp, hep⟩ := hmem e he
        exact ⟨p, by simp [hp], hep⟩
      · intro p hp hcitp
        rcases List.mem_cons.mp hp with rfl | hp
        · rw [hcit] at hcitp
          exact absurd rfl hcitp
        · exact hpost p hp hcitp
    | cons a as =>
      have hcit' : fetchFirst env.http (bibUrls pub.key) ≠ [] := by
        rw [hcit]
        simp
      have hstep := createPubStep_fresh env v pub hcit' (hfree pub (by simp))
      set c := pubContent (jsTrim pub.key)
          (fetchFirst env.http (bibUrls pub.key)) pub.author with hc
      obtain ⟨ext, heq, hmem, hpost⟩ :=
        ih ⟨v.files ++ [(pubPlainPath pub, c)]⟩
          (fun p hp => by
            rw [Vault.lookup_append_ne v _ _ _ (Ne.symm (hhead p hp))]
            exact hfree p (by simp [hp]))
          htail
      refine ⟨(pubPlainPath pub, c) :: ext, ?_, ?_, ?_⟩
      · rw [List.foldlM_cons, hstep]
        show List.foldlM (createPubStep env) ⟨v.files ++ [(pubPlainPath pub, c)]⟩ l
          = _
        rw [heq]
        simp
      · intro e he
        rcases List.mem_cons.mp he with rfl | he
        · exact ⟨pub, by simp, rfl⟩
        · obtain ⟨p, hp, hep⟩ := hmem e he
          exact ⟨p, by simp [hp], hep⟩
      · intro p hp hcitp
        rcases List.mem_cons.mp hp with rfl | hp
        · unfold Vault.lookup
          rw [List.find?_cons_of_pos _ (by simp)]
          rfl
        · have hne := hhead p hp
          have hp' := hpost p hp hcitp
          unfold Vault.lookup at hp' ⊢
          rw [List.find?_cons_of_neg _ (by simpa using hne)]
          exact hp'

theorem foldPubs_run2 (env : Env) : ∀ (l : List Publication) (v : Vault),
    (∀ pub ∈ l, fetchFirst env.http (bibUrls pub.key) ≠ [] →
      ∃ c, v.lookup (pubPlainPath pub) = some c ∧
        extractFileKey c = some (jsTrim pub.key)) →
    l.foldlM (createPubStep env) v = some v := by
  intro l
  induction l with
  | nil => intro v _; rfl
  | cons pub l ih =>
    intro v h
    cases hcit : fetchFirst env.http (bibUrls pub.key) with
    | nil =>
      have hstep : createPubStep env v pub = some v := by
        simp [createPubStep, hcit]
      rw [List.foldlM_cons, hstep]
      show l.foldlM (createPubStep env) v = some v
      exact ih v (fun p hp hc => h p (by simp [hp]) hc)
    | cons a as =>
      obtain ⟨c, hlook, hkey⟩ := h pub (by simp) (by rw [hcit]; simp)
      rw [List.foldlM_cons, createPubStep_synced env v pub c hlook hkey]
      show l.foldlM (createPubStep env) v = some v
      exact ih v (fun p hp hc => h p (by simp [hp]) hc)

/-! ## The coauthor loop across the two runs -/

theorem foldPersons_run1 (names : List Str) :
    ∀ (cos : List (Str × Str)) (v : Vault),
    (∀ co ∈ cos, co.1 ∉ names) →
    ∃ ext, cos.foldlM (personStep names) v = some ⟨v.files ++ ext⟩ ∧
      (∀ e ∈ ext,
        (∃ co, co ∈ cos ∧ e.1 = PEOPLE_DIR ++ '/' :: co.1 ++ ".md".data)
          ∧ v.lookup e.1 = none) ∧
      (∀ co ∈ cos,
        (Vault.lookup ⟨v.files ++ ext⟩
          (PEOPLE_DIR ++ '/' :: co.1 ++ ".md".data)).isSome = true) := by
  intro cos
  induction cos with
  | nil => intro v _; exact ⟨[], by simp, by simp, by simp⟩
  | cons co cos ih =>
    intro v h
    have hnm := h co (by simp)
    cases hcf : v.lookup (PEOPLE_DIR ++ '/' :: co.1 ++ ".md".data) with
    | some c =>
      have hstep : personStep names v co = some v := by
        unfold personStep
        rw [if_neg hnm, Vault.createFile_occupied v _ _ c hcf]
      obtain ⟨ext, heq, hmem, hpost⟩ := ih v (fun p hp => h p (by simp [hp]))
      refine ⟨ext, ?_, ?_, ?_⟩
      · rw [List.foldlM_cons, hstep]
        show cos.foldlM (personStep names) v = _
        exact heq
      · intro e he
        obtain ⟨⟨p, hp, hep⟩, hlook⟩ := hmem e he
        exact ⟨⟨p, by simp [hp], hep⟩, hlook⟩
      · intro p hp
        rcases List.mem_cons.mp hp with rfl | hp
        · exact Vault.lookup_isSome_append_left v ext _ (by rw [hcf]; rfl)
        · exact hpost p hp
    | none =>
      have hstep : personStep names v co
          = some ⟨v.files ++ [(PEOPLE_DIR ++ '/' :: co.1 ++ ".md".data,
              personContent (profileUrlOf co.2))]⟩ := by
        unfold personStep
        rw [if_neg hnm, Vault.createFile_free v _ _ hcf]
      set pc := personContent (profileUrlOf co.2) with hpc
      obtain ⟨ext, heq, hmem, hpost⟩ :=
        ih ⟨v.files ++ [(PEOPLE_DIR ++ '/' :: co.1 ++ ".md".data, pc)]⟩
          (fun p hp => h p (by simp [hp]))
      refine ⟨(PEOPLE_DIR ++ '/' :: co.1 ++ ".md".data, pc) :: ext, ?_, ?_, ?_⟩
      · rw [List.foldlM_cons, hstep]
        show List.foldlM (personStep names)
            ⟨v.files ++ [(PEOPLE_DIR ++ '/' :: co.1 ++ ".md".data, pc)]⟩ cos = _
        rw [heq]
        simp
      · intro e he
        rcases List.mem_cons.mp he with rfl | he
        · exact ⟨⟨co, by simp, rfl⟩, hcf⟩
        · obtain ⟨⟨p, hp, hep⟩, hlook⟩ := hmem e he
          exact ⟨⟨p, by simp [hp], hep⟩,
            (Vault.lookup_append_none v.files _ e.1 hlook).1⟩
      · intro p hp
        rcases List.mem_cons.mp hp with rfl | hp
        · rw [Vault.lookup_append_right_of_none v _ _ hcf]
          rw [show Vault.lookup
              ⟨(PEOPLE_DIR ++ '/' :: p.1 ++ ".md".data, pc) :: ext⟩
              (PEOPLE_DIR ++ '/' :: p.1 ++ ".md".data) = some pc from by
            unfold Vault.lookup
            rw [List.find?_cons_of_pos _ (by simp)]
            rfl]
          rfl
        · have := hpost p hp
          rwa [show (v.files ++ [(PEOPLE_DIR ++ '/' :: co.1 ++ ".md".data, pc)])
              ++ ext
              = v.files ++ (PEOPLE_DIR ++ '/' :: co.1 ++ ".md".data, pc) :: ext
            from by simp] at this

theorem foldPersons_run2 (names : List Str) :
    ∀ (cos : List (Str × Str)) (v : Vault),
    (∀ co ∈ cos, co.1 ∉ names) →
    (∀ co ∈ cos,
      (v.lookup (PEOPLE_DIR ++ '/' :: co.1 ++ ".md".data)).isSome = true) →
    cos.foldlM (personStep names) v = some v := by
  intro cos
  induction cos with
  | nil => intro v _ _; rfl
  | cons co cos ih =>
    intro v h hocc
    have hnm := h co (by simp)
    cases hcf : v.lookup (PEOPLE_DIR ++ '/' :: co.1 ++ ".md".data) with
    | none =>
      have := hocc co (by simp)
      rw [hcf] at this
      simp at this
    | some c =>
      have hstep : personStep names v co = some v := by
        unfold personStep
        rw [if_neg hnm, Vault.createFile_occupied v _ _ c hcf]
      rw [List.foldlM_cons, hstep]
      show cos.foldlM (personStep names) v = some v
      exact ih v (fun p hp => h p (by simp [hp]))
        (fun p hp => hocc p (by simp [hp]))

/-! ## Link-line facts -/

/-- The URL field of the profile, flattened. -/
def urlsOf (d : DblpPerson) : List Str :=
  match d.person.url with
  | none => []
  | some (.one u) => [u]
  | some (.many us) => us

theorem linksOf_eq_fold (d : DblpPerson) :
    linksOf d = (urlsOf d).foldl processURL ⟨[], [], []⟩ := by
  unfold linksOf urlsOf
  cases d.person.url with
  | none => rfl
  | some oom => cases oom <;> rfl

theorem foldProcessURL_inv (P : Str → Prop) :
    ∀ (us : List Str) (acc : Links),
    (P acc.orcid ∧ P acc.wikipedia ∧ P acc.mgp) →
    (∀ u ∈ us, P u) →
    (P (us.foldl processURL acc).orcid ∧ P (us.foldl processURL acc).wikipedia ∧
      P (us.foldl processURL acc).mgp) := by
  intro us
  induction us with
  | nil => intro acc h _; exact h
  | cons u us ih =>
    intro acc h hall
    rw [List.foldl_cons]
    apply ih
    · unfold processURL
      split_ifs <;>
        exact ⟨by first | exact hall u (by simp) | exact h.1,
          by first | exact hall u (by simp) | exact h.2.1,
          by first | exact hall u (by simp) | exact h.2.2⟩
    · exact fun u' hu' => hall u' (by simp [hu'])

theorem keepLine_cons (c : Char) (s : Str) (h1 : c ≠ 'L') (h2 : c ≠ 'a') :
    keepLine (c :: s) = true := by
  unfold keepLine
  rw [show ("Last DBLP fetch:".data) = 'L' :: "ast DBLP fetch:".data from rfl,
    isPrefixOf_cons_ne _ _ _ _ (by simpa using fun h => h1 h.symm),
    show ("affiliation::".data) = 'a' :: "ffiliation::".data from rfl,
    isPrefixOf_cons_ne _ _ _ _ (by simpa using fun h => h2 h.symm)]
  rfl

/-- Every rendered identity-link line is a kept, nonblank, newline-free
line when the profile URLs hold no newline. -/
theorem getLinks_facts (d : DblpPerson) (hurl : ∀ u ∈ urlsOf d, '\n' ∉ u) :
    ∀ l ∈ getLinks d, keepLine l = true ∧ nonblank l = true ∧ '\n' ∉ l := by
  have hnl := foldProcessURL_inv (fun x => '\n' ∉ x) (urlsOf d) ⟨[], [], []⟩
    ⟨by simp, by simp, by simp⟩ hurl
  rw [← linksOf_eq_fold] at hnl
  intro l hl
  unfold getLinks at hl
  rcases List.mem_map.mp hl with ⟨kv, hkv, rfl⟩
  have hkv' := List.mem_of_mem_filter hkv
  simp only [List.mem_cons, List.not_mem_nil, or_false] at hkv'
  rcases hkv' with rfl | rfl | rfl
  · refine ⟨?_, rfl, ?_⟩
    · exact keepLine_cons 'o' _ (by decide) (by decide)
    · intro hm
      rw [show "orcid".data ++ ": ".data ++ (linksOf d).orcid
          = "orcid: ".data ++ (linksOf d).orcid from by simp] at hm
      rcases List.mem_append.mp hm with hm | hm
      · revert hm; decide
      · exact hnl.1 hm
  · refine ⟨?_, rfl, ?_⟩
    · exact keepLine_cons 'w' _ (by decide) (by decide)
    · intro hm
      rw [show "wikipedia".data ++ ": ".data ++ (linksOf d).wikipedia
          = "wikipedia: ".data ++ (linksOf d).wikipedia from by simp] at hm
      rcases List.mem_append.mp hm with hm | hm
      · revert hm; decide
      · exact hnl.2.1 hm
  · refine ⟨?_, rfl, ?_⟩
    · exact keepLine_cons 'm' _ (by decide) (by decide)
    · intro hm
      rw [show "mgp".data ++ ": ".data ++ (linksOf d).mgp
          = "mgp: ".data ++ (linksOf d).mgp from by simp] at hm
      rcases List.mem_append.mp hm with hm | hm
      · revert hm; decide
      · exact hnl.2.2 hm

/-! ## Final filter algebra on merged subject notes -/

theorem filterP_coreLines (s : Str) :
    (splitL s).filter (fun l => keepLine l && nonblank l)
      = List.filter keepLine (coreLines s) := by
  unfold coreLines
  rw [List.filter_filter]
  apply List.filter_congr
  intro l _
  cases hk : keepLine l with
  | false => simp [hk]
  | true =>
    have hts := keepLine_tsOk l hk
    unfold tsOkLine at hts
    simp [hk, hts, nonblank]

theorem filter_keepLine_filterP (s : List Str) :
    List.filter keepLine (s.filter (fun l => keepLine l && nonblank l))
      = s.filter (fun l => keepLine l && nonblank l) := by
  apply List.filter_eq_self.mpr
  intro a ha
  have := List.of_mem_filter ha
  exact (Bool.and_elim_left this)

theorem filter_keepLine_affLines (affils : List Str) :
    List.filter keepLine
        (affils.map (fun a => "affiliation:: [[".data ++ a ++ "]]".data)) = [] := by
  rw [List.filter_eq_nil_iff]
  intro a ha
  rcases List.mem_map.mp ha with ⟨x, _, rfl⟩
  intro h
  rw [(affLine_facts x).2.2] at h
  simp at h

/-! ## Listing shapes of the phase extensions -/

theorem person_path_shape (x : Str) :
    PEOPLE_DIR ++ '/' :: x = 'P' :: 'e' :: ("ople".data ++ '/' :: x) := rfl

theorem org_path_shape (x : Str) :
    ORG_DIR ++ '/' :: x = 'O' :: ("rganizations".data ++ '/' :: x) := rfl

theorem peopleNames_mk_sub (ext : List (Str × Str)) (cos : List (Str × Str))
    (h : ∀ e ∈ ext, ∃ co, co ∈ cos ∧
      e.1 = PEOPLE_DIR ++ '/' :: co.1 ++ ".md".data) :
    ∀ nm ∈ peopleNames ⟨ext⟩, ∃ co, co ∈ cos ∧ nm = co.1 ++ ".md".data := by
  intro nm hnm
  unfold peopleNames at hnm
  rcases List.mem_map.mp hnm with ⟨child, hchild, rfl⟩
  unfold childrenOf at hchild
  rcases List.mem_filterMap.mp hchild with ⟨e, he, hsome⟩
  obtain ⟨co, hco, hpath⟩ := h e he
  by_cases hc : (PEOPLE_DIR ++ ['/']).isPrefixOf e.1
      ∧ '/' ∉ e.1.drop (PEOPLE_DIR.length + 1)
  · rw [if_pos hc] at hsome
    cases hsome
    refine ⟨co, hco, ?_⟩
    show e.1.drop (PEOPLE_DIR.length + 1) = co.1 ++ ".md".data
    rw [hpath]
    exact drop_spine PEOPLE_DIR (co.1 ++ ".md".data) '/'
  · rw [if_neg hc] at hsome
    cases hsome

theorem orgPath_child (ext : List (Str × Str)) (org : Str) (hnslash : '/' ∉ org)
    (hmem : (orgPath org, ([] : Str)) ∈ ext) :
    (org ++ ".md".data, ([] : Str)) ∈ childrenOf ⟨ext⟩ ORG_DIR := by
  unfold childrenOf
  apply List.mem_filterMap.mpr
  refine ⟨(orgPath org, []), hmem, ?_⟩
  have hnos : '/' ∉ (ORG_DIR ++ '/' :: (org ++ ".md".data)).drop
      (ORG_DIR.length + 1) := by
    rw [drop_spine]
    intro hm
    rcases List.mem_append.mp hm with hm | hm
    · exact hnslash hm
    · revert hm; decide
  have hc : (ORG_DIR ++ ['/']).isPrefixOf (orgPath org)
      ∧ '/' ∉ (orgPath org).drop (ORG_DIR.length + 1) := by
    constructor
    · show (ORG_DIR ++ ['/']).isPrefixOf (ORG_DIR ++ '/' :: (org ++ ".md".data))
        = true
      rw [show ORG_DIR ++ '/' :: (org ++ ".md".data)
          = (ORG_DIR ++ ['/']) ++ (org ++ ".md".data) from by simp]
      exact isPrefixOf_self_append _ _
    · exact hnos
  rw [if_pos hc]
  show some ((ORG_DIR ++ '/' :: (org ++ ".md".data)).drop (ORG_DIR.length + 1),
    ([] : Str)) = _
  rw [drop_spine]

/-- A note sitting at an organization path witnesses its basename in the
alias-free catalog keys. -/
theorem keys_of_lookup (v : Vault) (org : Str) (hnslash : '/' ∉ org)
    (hsome : (v.lookup (orgPath org)).isSome = true) :
    org ∈ (baseMap (childrenOf v ORG_DIR) []).map (·.1) := by
  obtain ⟨e, he, hep⟩ := Vault.lookup_isSome_mem_path v _ hsome
  apply (baseMap_keys_iff _ _ _).mpr
  right
  refine ⟨(org ++ ".md".data, e.2), ?_, (basenameOf_append_md org).symm⟩
  unfold childrenOf
  apply List.mem_filterMap.mpr
  refine ⟨e, he, ?_⟩
  rw [hep]
  have hnos : '/' ∉ (ORG_DIR ++ '/' :: (org ++ ".md".data)).drop
      (ORG_DIR.length + 1) := by
    rw [drop_spine]
    intro hm
    rcases List.mem_append.mp hm with hm | hm
    · exact hnslash hm
    · revert hm; decide
  have hc : (ORG_DIR ++ ['/']).isPrefixOf (orgPath org)
      ∧ '/' ∉ (orgPath org).drop (ORG_DIR.length + 1) := by
    constructor
    · show (ORG_DIR ++ ['/']).isPrefixOf (ORG_DIR ++ '/' :: (org ++ ".md".data))
        = true
      rw [show ORG_DIR ++ '/' :: (org ++ ".md".data)
          = (ORG_DIR ++ ['/']) ++ (org ++ ".md".data) from by simp]
      exact isPrefixOf_self_append _ _
    · exact hnos
  rw [if_pos hc]
  show some ((ORG_DIR ++ '/' :: (org ++ ".md".data)).drop (ORG_DIR.length + 1),
    e.2) = _
  rw [drop_spine]

theorem map_replace_id (ext : List (Str × Str)) (p c : Str)
    (hne : ∀ e ∈ ext, e.1 ≠ p) :
    ext.map (fun f => if f.1 = p then (p, c) else f) = ext := by
  induction ext with
  | nil => rfl
  | cons e es ih =>
    rw [List.map_cons, if_neg (hne e (by simp)),
      ih (fun x hx => hne x (by simp [hx]))]

/-- C1 (amended): for a fixed remote profile and initial vault, under the
stated framing hypotheses — the profile parses, its publication titles
target distinct fresh paths with well-formed keys, no coauthor name
collides with an existing or created person-note file name, the
similarity indices accept exactly the catalogued names (with perfect
scores) and nothing else, the initially present organization notes
declare no aliases, affiliations and URLs are separator-free, the
subject note exists outside the organizations folder and does not yet
mention the identity links — running the sync twice yields, after run 2,
a vault identical to the one after run 1 at every path other than the
subject note, and a subject note whose lines agree after discarding the
`Last DBLP fetch` timestamp line and blank-line placement.  (Byte-level
idempotence fails: see the counterexample.) -/
theorem claim_C1 (env : Env) (now₁ now₂ dblpUrl subject : Str) (v₀ : Vault)
    (d : DblpPerson) (cos : List (Str × Str))
    (hfetch : fetchFirst env.http (profileUrls dblpUrl) ≠ [])
    (hparse : env.parse (fetchFirst env.http (profileUrls dblpUrl)) = some d)
    (hco : coauthorsOf d = some cos)
    (hkeys : ∀ pub ∈ (extractPubs d).filter pubKindKnown,
      plainKey (jsTrim pub.key))
    (hfree : ∀ pub ∈ (extractPubs d).filter pubKindKnown,
      v₀.lookup (pubPlainPath pub) = none)
    (hdist : List.Pairwise (fun a b => pubPlainPath a ≠ pubPlainPath b)
      ((extractPubs d).filter pubKindKnown))
    (hnm0 : ∀ co ∈ cos, co.1 ∉ peopleNames v₀)
    (hnmmd : ∀ co ∈ cos, ∀ co' ∈ cos, co.1 ≠ co'.1 ++ ".md".data)
    (hexact : ∀ ks q, q ∈ ks →
      env.fuzzy ks q = [(1, q)] ∧ env.fuse ks q = [(some 0, q)])
    (hmiss : ∀ ks q, q ∉ ks → env.fuzzy ks q = [])
    (hnoalias : ∀ e ∈ childrenOf v₀ ORG_DIR, aliasesOf e.2 = [])
    (haffs : ∀ a ∈ dblpAffsOf d.person.note, '/' ∉ a ∧ '\n' ∉ a)
    (hurl : ∀ u ∈ urlsOf d, '\n' ∉ u)
    (hnow₁ : '\n' ∉ now₁) (hnow₂ : '\n' ∉ now₂)
    (hsubjex : (v₀.lookup subject).isSome = true)
    (hsubjorg : (ORG_DIR ++ ['/']).isPrefixOf subject = false)
    (hfresh : ∀ l ∈ getLinks d,
      hasSub l ((v₀.lookup subject).getD []) = false) :
    ∃ v₁ v₂,
      fetchRun env now₁ dblpUrl subject v₀ = some v₁ ∧
      fetchRun env now₂ dblpUrl subject v₁ = some v₂ ∧
      (∀ p, p ≠ subject → v₂.lookup p = v₁.lookup p) ∧
      coreLines ((v₂.lookup subject).getD [])
        = coreLines ((v₁.lookup subject).getD []) := by
  obtain ⟨s₀, hs₀⟩ : ∃ s₀, v₀.lookup subject = some s₀ := by
    cases hc : v₀.lookup subject with
    | none => rw [hc] at hsubjex; simp at hsubjex
    | some c => exact ⟨c, rfl⟩
  have hfresh' : ∀ l ∈ getLinks d, hasSub l s₀ = false := by
    intro l hl
    have := hfresh l hl
    rw [hs₀] at this
    simpa using this
  -- ## Run 1, phase A: publications
  obtain ⟨pubExt, hpubeq, hpubmem, hpubpost⟩ :=
    foldPubs_run1 env ((extractPubs d).filter pubKindKnown) v₀ hfree hdist
  have hpubppl : ∀ e ∈ pubExt, (PEOPLE_DIR ++ ['/']).isPrefixOf e.1 = false := by
    intro e he
    obtain ⟨pub, hp, hep⟩ := hpubmem e he
    obtain ⟨s, hs⟩ := pubPlainPath_shape pub (List.of_mem_filter hp)
    rw [hep, hs]
    exact people_dir_not_pre_papers s
  have hpuborg : ∀ e ∈ pubExt, (ORG_DIR ++ ['/']).isPrefixOf e.1 = false := by
    intro e he
    obtain ⟨pub, hp, hep⟩ := hpubmem e he
    obtain ⟨s, hs⟩ := pubPlainPath_shape pub (List.of_mem_filter hp)
    rw [hep, hs]
    exact org_dir_not_pre _
  -- ## Run 1, phase B: coauthors
  have hnames₁ : peopleNames ⟨v₀.files ++ pubExt⟩ = peopleNames v₀ := by
    unfold peopleNames
    rw [childrenOf_mk_append, childrenOf_eq_nil pubExt PEOPLE_DIR hpubppl]
    simp
  obtain ⟨perExt, hpereq, hpermem, hperpost⟩ :=
    foldPersons_run1 (peopleNames ⟨v₀.files ++ pubExt⟩) cos ⟨v₀.files ++ pubExt⟩
      (by rw [hnames₁]; exact hnm0)
  have hperorg : ∀ e ∈ perExt, (ORG_DIR ++ ['/']).isPrefixOf e.1 = false := by
    intro e he
    obtain ⟨co, -, hep⟩ := (hpermem e he).1
    rw [hep, person_path_shape]
    exact org_dir_not_pre _
  -- ## Run 1, phase C: organizations
  have hchildb₁ : childrenOf ⟨(v₀.files ++ pubExt) ++ perExt⟩ ORG_DIR
      = childrenOf v₀ ORG_DIR := by
    rw [childrenOf_mk_append, childrenOf_mk_append,
      childrenOf_eq_nil pubExt ORG_DIR hpuborg,
      childrenOf_eq_nil perExt ORG_DIR hperorg]
    simp
  have hcat₁ : buildOrgMap (childrenOf ⟨(v₀.files ++ pubExt) ++ perExt⟩ ORG_DIR)
      = baseMap (childrenOf v₀ ORG_DIR) [] := by
    rw [hchildb₁]
    exact buildOrgMap_no_alias _ hnoalias
  have hdiag₁ : Diag (baseMap (childrenOf v₀ ORG_DIR) []) :=
    baseMap_diag _ [] (by intro e he; cases he)
  have hget₁ : ∀ k, k ∈ (baseMap (childrenOf v₀ ORG_DIR) []).map (·.1) →
      mapGet (baseMap (childrenOf v₀ ORG_DIR) []) k = some k :=
    fun k hk => mapGet_diag_mem _ k hdiag₁ hk
  obtain ⟨orgExt, horgeq, horgmem, horgpost⟩ :
      ∃ orgExt,
      getAffiliations env ⟨(v₀.files ++ pubExt) ++ perExt⟩ d
        = (⟨(((v₀.files ++ pubExt) ++ perExt)) ++ orgExt⟩,
            dblpAffsOf d.person.note) ∧
      (∀ e ∈ orgExt, (∃ org, org ∈ dblpAffsOf d.person.note ∧
          org ∉ (baseMap (childrenOf v₀ ORG_DIR) []).map (·.1) ∧
          e = (orgPath org, ([] : Str)))
        ∧ Vault.lookup ⟨(v₀.files ++ pubExt) ++ perExt⟩ e.1 = none) ∧
      (∀ org ∈ dblpAffsOf d.person.note,
        org ∉ (baseMap (childrenOf v₀ ORG_DIR) []).map (·.1) →
        (Vault.lookup ⟨((v₀.files ++ pubExt) ++ perExt) ++ orgExt⟩
          (orgPath org)).isSome = true) := by
    unfold getAffiliations
    cases hnote : d.person.note with
    | none =>
      refine ⟨[], ?_, by simp, ?_⟩
      · rw [show dblpAffsOf (none : Option (OneOrMany DblpNote)) = [] from rfl]
        simp
      · rw [show dblpAffsOf (none : Option (OneOrMany DblpNote)) = [] from rfl]
        simp
    | some nt =>
      rw [hcat₁]
      obtain ⟨orgExt, heq, hmem, hpost⟩ :=
        orgFold_run1 env ((baseMap (childrenOf v₀ ORG_DIR) []).map (·.1))
          (baseMap (childrenOf v₀ ORG_DIR) []) hget₁
          (fun q hq => (hexact _ q hq).1) (fun q hq => (hexact _ q hq).2)
          (fun q hq => hmiss _ q hq)
          (dblpAffsOf (some nt)) ⟨(v₀.files ++ pubExt) ++ perExt⟩ []
      exact ⟨orgExt, by rw [heq]; simp, hmem, hpost⟩
  have hsubjc₁ : Vault.lookup ⟨((v₀.files ++ pubExt) ++ perExt) ++ orgExt⟩
      subject = some s₀ := by
    apply Vault.lookup_append_left_some ⟨(v₀.files ++ pubExt) ++ perExt⟩
    apply Vault.lookup_append_left_some ⟨v₀.files ++ pubExt⟩
    exact Vault.lookup_append_left_some v₀ pubExt subject s₀ hs₀
  -- ## Run 1, the final subject write
  have hpp : populatePublicationNotes env v₀ d = some ⟨v₀.files ++ pubExt⟩ := by
    unfold populatePublicationNotes createPublicationMdFiles
    exact hpubeq
  have hpa : populateAuthorNotes ⟨v₀.files ++ pubExt⟩ d
      = some ⟨(v₀.files ++ pubExt) ++ perExt⟩ := by
    unfold populateAuthorNotes
    rw [hco]
    exact hpereq
  have hrun1 : fetchRun env now₁ dblpUrl subject v₀
      = some (Vault.write ⟨((v₀.files ++ pubExt) ++ perExt) ++ orgExt⟩ subject
          (mergeSubject (getLinks d) (dblpAffsOf d.person.note) now₁ s₀)) := by
    unfold fetchRun
    rw [if_neg hfetch]
    simp only [hparse, hpp, hpa, horgeq]
    rw [hsubjc₁]
    rfl
  -- ## Preparation for run 2
  have hpubpathsubj : ∀ pub ∈ (extractPubs d).filter pubKindKnown,
      pubPlainPath pub ≠ subject := by
    intro pub hp heq
    have h1 := hfree pub hp
    rw [heq, hs₀] at h1
    simp at h1
  have hpubsubj : ∀ e ∈ pubExt, e.1 ≠ subject := by
    intro e he
    obtain ⟨pub, hp, hep⟩ := hpubmem e he
    rw [hep]
    exact hpubpathsubj pub hp
  have hpersubj : ∀ e ∈ perExt, e.1 ≠ subject := by
    intro e he heq
    have h2 := (hpermem e he).2
    have h3 : v₀.lookup e.1 = none :=
      (Vault.lookup_append_none v₀.files pubExt e.1 h2).1
    rw [heq, hs₀] at h3
    simp at h3
  have horgsubj : ∀ e ∈ orgExt, e.1 ≠ subject := by
    intro e he heq
    have h2 := (horgmem e he).2
    have h3 : v₀.lookup e.1 = none :=
      (Vault.lookup_append_none v₀.files pubExt e.1
        (Vault.lookup_append_none (v₀.files ++ pubExt) perExt e.1 h2).1).1
    rw [heq, hs₀] at h3
    simp at h3
  have hw₁ : (Vault.write ⟨((v₀.files ++ pubExt) ++ perExt) ++ orgExt⟩ subject
        (mergeSubject (getLinks d) (dblpAffsOf d.person.note) now₁ s₀)).files
      = (((v₀.files.map (fun f => if f.1 = subject then
            (subject, mergeSubject (getLinks d) (dblpAffsOf d.person.note)
              now₁ s₀) else f))
          ++ pubExt) ++ perExt) ++ orgExt := by
    unfold Vault.write
    rw [if_pos (by rw [hsubjc₁]; rfl)]
    show ((((v₀.files ++ pubExt) ++ perExt) ++ orgExt).map _) = _
    rw [List.map_append, List.map_append, List.map_append,
      map_replace_id pubExt _ _ hpubsubj, map_replace_id perExt _ _ hpersubj,
      map_replace_id orgExt _ _ horgsubj]
  have hw₁v : Vault.write ⟨((v₀.files ++ pubExt) ++ perExt) ++ orgExt⟩ subject
        (mergeSubject (getLinks d) (dblpAffsOf d.person.note) now₁ s₀)
      = ⟨(((v₀.files.map (fun f => if f.1 = subject then
            (subject, mergeSubject (getLinks d) (dblpAffsOf d.person.note)
              now₁ s₀) else f))
          ++ pubExt) ++ perExt) ++ orgExt⟩ := by
    rw [← hw₁]
  have hsubjw₁ : (Vault.write ⟨((v₀.files ++ pubExt) ++ perExt) ++ orgExt⟩
        subject
        (mergeSubject (getLinks d) (dblpAffsOf d.person.note) now₁ s₀)).lookup
        subject
      = some (mergeSubject (getLinks d) (dblpAffsOf d.person.note) now₁ s₀) :=
    Vault.lookup_write_self _ subject _
  -- ## Run 2, phase A
  have hlookpub : ∀ pub ∈ (extractPubs d).filter pubKindKnown,
      fetchFirst env.http (bibUrls pub.key) ≠ [] →
      ∃ c, (Vault.write ⟨((v₀.files ++ pubExt) ++ perExt) ++ orgExt⟩ subject
          (mergeSubject (getLinks d) (dblpAffsOf d.person.note)
            now₁ s₀)).lookup (pubPlainPath pub) = some c ∧
        extractFileKey c = some (jsTrim pub.key) := by
    intro pub hp hcit
    refine ⟨pubContent (jsTrim pub.key) (fetchFirst env.http (bibUrls pub.key))
      pub.author, ?_, extractFileKey_pubContent _ _ _ (hkeys pub hp)⟩
    rw [Vault.lookup_write_ne _ _ _ _ (hpubpathsubj pub hp)]
    apply Vault.lookup_append_left_some ⟨(v₀.files ++ pubExt) ++ perExt⟩
    apply Vault.lookup_append_left_some ⟨v₀.files ++ pubExt⟩
    rw [Vault.lookup_append_right_of_none v₀ pubExt _ (hfree pub hp)]
    exact hpubpost pub hp hcit
  have hrun2A : populatePublicationNotes env
      (Vault.write ⟨((v₀.files ++ pubExt) ++ perExt) ++ orgExt⟩ subject
        (mergeSubject (getLinks d) (dblpAffsOf d.person.note) now₁ s₀)) d
      = some (Vault.write ⟨((v₀.files ++ pubExt) ++ perExt) ++ orgExt⟩ subject
        (mergeSubject (getLinks d) (dblpAffsOf d.person.note) now₁ s₀)) := by
    unfold populatePublicationNotes createPublicationMdFiles
    exact foldPubs_run2 env _ _ hlookpub
  -- ## Run 2, phase B
  have horgppl : ∀ e ∈ orgExt, (PEOPLE_DIR ++ ['/']).isPrefixOf e.1 = false := by
    intro e he
    obtain ⟨⟨org, -, -, hforg⟩, -⟩ := horgmem e he
    rw [hforg]
    show (PEOPLE_DIR ++ ['/']).isPrefixOf (orgPath org) = false
    rw [show orgPath org = ORG_DIR ++ '/' :: (org ++ ".md".data) from rfl,
      org_path_shape]
    exact people_dir_not_pre_org _
  have hppl₂ : ∀ nm ∈ peopleNames
      ⟨(((v₀.files.map (fun f => if f.1 = subject then
            (subject, mergeSubject (getLinks d) (dblpAffsOf d.person.note)
              now₁ s₀) else f))
          ++ pubExt) ++ perExt) ++ orgExt⟩,
      nm ∈ peopleNames v₀ ∨ ∃ co, co ∈ cos ∧ nm = co.1 ++ ".md".data := by
    intro nm hnm
    unfold peopleNames at hnm
    rw [childrenOf_mk_append, childrenOf_mk_append, childrenOf_mk_append,
      childrenOf_eq_nil pubExt _ hpubppl,
      childrenOf_eq_nil orgExt _ horgppl] at hnm
    simp only [List.append_nil, List.map_append] at hnm
    rcases List.mem_append.mp hnm with h | h
    · left
      rw [childNames_map_replace] at h
      exact h
    · right
      exact peopleNames_mk_sub perExt cos (fun e he => (hpermem e he).1) nm
        (by unfold peopleNames; exact h)
  have hnm₂ : ∀ co ∈ cos, co.1 ∉ peopleNames
      (Vault.write ⟨((v₀.files ++ pubExt) ++ perExt) ++ orgExt⟩ subject
        (mergeSubject (getLinks d) (dblpAffsOf d.person.note) now₁ s₀)) := by
    intro co hco hmemp
    rw [hw₁v] at hmemp
    rcases hppl₂ co.1 hmemp with h | ⟨co', hco', heq⟩
    · exact hnm0 co hco h
    · exact hnmmd co hco co' hco' heq
  have hocc₂ : ∀ co ∈ cos,
      ((Vault.write ⟨((v₀.files ++ pubExt) ++ perExt) ++ orgExt⟩ subject
        (mergeSubject (getLinks d) (dblpAffsOf d.person.note) now₁ s₀)).lookup
          (PEOPLE_DIR ++ '/' :: co.1 ++ ".md".data)).isSome = true := by
    intro co hco
    apply Vault.write_isSome_mono
    apply Vault.lookup_isSome_append_left ⟨(v₀.files ++ pubExt) ++ perExt⟩
    exact hperpost co hco
  have hrun2B : populateAuthorNotes
      (Vault.write ⟨((v₀.files ++ pubExt) ++ perExt) ++ orgExt⟩ subject
        (mergeSubject (getLinks d) (dblpAffsOf d.person.note) now₁ s₀)) d
      = some (Vault.write ⟨((v₀.files ++ pubExt) ++ perExt) ++ orgExt⟩ subject
        (mergeSubject (getLinks d) (dblpAffsOf d.person.note) now₁ s₀)) := by
    unfold populateAuthorNotes
    rw [hco]
    exact foldPersons_run2 _ cos _ hnm₂ hocc₂
  -- ## Run 2, phase C
  have hchild₂ : childrenOf
      (Vault.write ⟨((v₀.files ++ pubExt) ++ perExt) ++ orgExt⟩ subject
        (mergeSubject (getLinks d) (dblpAffsOf d.person.note) now₁ s₀)) ORG_DIR
      = childrenOf v₀ ORG_DIR ++ childrenOf ⟨orgExt⟩ ORG_DIR := by
    rw [hw₁v, childrenOf_mk_append, childrenOf_mk_append, childrenOf_mk_append,
      childrenOf_eq_nil pubExt _ hpuborg, childrenOf_eq_nil perExt _ hperorg,
      childrenOf_map_replace_not_under v₀.files subject _ ORG_DIR hsubjorg]
    simp
  have hnoalias₂ : ∀ e ∈ childrenOf v₀ ORG_DIR ++ childrenOf ⟨orgExt⟩ ORG_DIR,
      aliasesOf e.2 = [] := by
    intro e he
    rcases List.mem_append.mp he with he | he
    · exact hnoalias e he
    · unfold childrenOf at he
      rcases List.mem_filterMap.mp he with ⟨f, hf, hsome⟩
      obtain ⟨⟨org, -, -, hforg⟩, -⟩ := horgmem f hf
      by_cases hc : (ORG_DIR ++ ['/']).isPrefixOf f.1
          ∧ '/' ∉ f.1.drop (ORG_DIR.length + 1)
      · rw [if_pos hc] at hsome
        cases hsome
        show aliasesOf f.2 = []
        rw [hforg]
        exact aliasesOf_nil
      · rw [if_neg hc] at hsome
        cases hsome
  have hcat₂ : buildOrgMap (childrenOf
      (Vault.write ⟨((v₀.files ++ pubExt) ++ perExt) ++ orgExt⟩ subject
        (mergeSubject (getLinks d) (dblpAffsOf d.person.note) now₁ s₀)) ORG_DIR)
      = baseMap (childrenOf v₀ ORG_DIR ++ childrenOf ⟨orgExt⟩ ORG_DIR) [] := by
    rw [hchild₂]
    exact buildOrgMap_no_alias _ hnoalias₂
  have hdiag₂ : Diag (baseMap
      (childrenOf v₀ ORG_DIR ++ childrenOf ⟨orgExt⟩ ORG_DIR) []) :=
    baseMap_diag _ [] (by intro e he; cases he)
  have hget₂ : ∀ k, k ∈ (baseMap
      (childrenOf v₀ ORG_DIR ++ childrenOf ⟨orgExt⟩ ORG_DIR) []).map (·.1) →
      mapGet (baseMap (childrenOf v₀ ORG_DIR ++ childrenOf ⟨orgExt⟩ ORG_DIR) [])
        k = some k :=
    fun k hk => mapGet_diag_mem _ k hdiag₂ hk
  have hkeys₂ : ∀ org ∈ dblpAffsOf d.person.note,
      org ∈ (baseMap
        (childrenOf v₀ ORG_DIR ++ childrenOf ⟨orgExt⟩ ORG_DIR) []).map (·.1) := by
    intro org horg
    by_cases hk : org ∈ (baseMap (childrenOf v₀ ORG_DIR) []).map (·.1)
    · rw [show baseMap (childrenOf v₀ ORG_DIR ++ childrenOf ⟨orgExt⟩ ORG_DIR) []
          = baseMap (childrenOf ⟨orgExt⟩ ORG_DIR)
              (baseMap (childrenOf v₀ ORG_DIR) []) from by
        unfold baseMap
        rw [List.foldl_append]]
      exact (baseMap_keys_iff _ _ org).mpr (Or.inl hk)
    · have hps := horgpost org horg hk
      have hb₁none : Vault.lookup ⟨(v₀.files ++ pubExt) ++ perExt⟩
          (orgPath org) = none := by
        cases hcc : Vault.lookup ⟨(v₀.files ++ pubExt) ++ perExt⟩
            (orgPath org) with
        | none => rfl
        | some c =>
          exfalso
          apply hk
          have hkl := keys_of_lookup ⟨(v₀.files ++ pubExt) ++ perExt⟩ org
            (haffs org horg).1 (by rw [hcc]; rfl)
          rwa [hchildb₁] at hkl
      rw [Vault.lookup_append ((v₀.files ++ pubExt) ++ perExt) orgExt] at hps
      rw [show Vault.lookup ⟨(v₀.files ++ pubExt) ++ perExt⟩ (orgPath org)
          = none from hb₁none] at hps
      simp only [Option.none_or] at hps
      obtain ⟨e, he, hep⟩ := Vault.lookup_isSome_mem_path ⟨orgExt⟩ _ hps
      obtain ⟨⟨org', -, -, hforg⟩, -⟩ := horgmem e he
      rw [hforg] at hep
      simp only at hep
      rw [hep] at hforg
      rw [hforg] at he
      have hchild := orgPath_child orgExt org (haffs org horg).1 he
      exact (baseMap_keys_iff _ _ _).mpr (Or.inr ⟨(org ++ ".md".data, []),
        List.mem_append.mpr (Or.inr hchild), (basenameOf_append_md org).symm⟩)
  have horg₂ : getAffiliations env
      (Vault.write ⟨((v₀.files ++ pubExt) ++ perExt) ++ orgExt⟩ subject
        (mergeSubject (getLinks d) (dblpAffsOf d.person.note) now₁ s₀)) d
      = (Vault.write ⟨((v₀.files ++ pubExt) ++ perExt) ++ orgExt⟩ subject
          (mergeSubject (getLinks d) (dblpAffsOf d.person.note) now₁ s₀),
        dblpAffsOf d.person.note) := by
    unfold getAffiliations
    rw [hcat₂]
    cases hnote : d.person.note with
    | none => rfl
    | some nt =>
      rw [orgFold_run2 env _ _ hget₂
        (fun q hq => (hexact _ q hq).1) (fun q hq => (hexact _ q hq).2)
        (dblpAffsOf (some nt)) _ []
        (fun org ho => hkeys₂ org (by rw [hnote]; exact ho))]
      simp
  -- ## Run 2, the final write
  have hrun2 : fetchRun env now₂ dblpUrl subject
      (Vault.write ⟨((v₀.files ++ pubExt) ++ perExt) ++ orgExt⟩ subject
        (mergeSubject (getLinks d) (dblpAffsOf d.person.note) now₁ s₀))
      = some ((Vault.write ⟨((v₀.files ++ pubExt) ++ perExt) ++ orgExt⟩ subject
          (mergeSubject (getLinks d) (dblpAffsOf d.person.note) now₁ s₀)).write
        subject
        (mergeSubject (getLinks d) (dblpAffsOf d.person.note) now₂
          (mergeSubject (getLinks d) (dblpAffsOf d.person.note) now₁ s₀))) := by
    unfold fetchRun
    rw [if_neg hfetch]
    simp only [hparse, hrun2A, hrun2B, horg₂]
    rw [hsubjw₁]
    rfl
  -- ## Assembly
  refine ⟨_, _, hrun1, hrun2, ?_, ?_⟩
  · intro p hp
    exact Vault.lookup_write_ne _ subject _ p hp
  · rw [Vault.lookup_write_self, hsubjw₁]
    simp only [Option.getD_some]
    -- ## The merged-note comparison
    have hlnl : ∀ l ∈ getLinks d, '\n' ∉ l :=
      fun l hl => (getLinks_facts d hurl l hl).2.2
    have hanl : ∀ a ∈ dblpAffsOf d.person.note, '\n' ∉ a :=
      fun a ha => (haffs a ha).2
    have hM₁ := coreLines_mergeSubject (getLinks d) (dblpAffsOf d.person.note)
      now₁ s₀ hlnl hanl hnow₁
    have hpresent : ∀ l ∈ getLinks d,
        hasSub l (mergeSubject (getLinks d) (dblpAffsOf d.person.note)
          now₁ s₀) = true := by
      intro l hl
      obtain ⟨hkeep, hnb, hnl⟩ := getLinks_facts d hurl l hl
      apply hasSub_of_mem_splitL l _ (by
        intro h
        rw [h] at hnb
        simp [nonblank] at hnb)
      have hmem : l ∈ coreLines (mergeSubject (getLinks d)
          (dblpAffsOf d.person.note) now₁ s₀) := by
        rw [hM₁]
        refine List.mem_append.mpr (Or.inl ?_)
        refine List.mem_filter.mpr ⟨?_, by rw [hkeep, hnb]; rfl⟩
        refine List.mem_append.mpr (Or.inl ?_)
        refine List.mem_append.mpr (Or.inr ?_)
        refine List.mem_filter.mpr ⟨hl, by rw [hfresh' l hl]; rfl⟩
      unfold coreLines at hmem
      exact List.mem_of_mem_filter hmem
    have hM₂ := coreLines_mergeSubject (getLinks d) (dblpAffsOf d.person.note)
      now₂ (mergeSubject (getLinks d) (dblpAffsOf d.person.note) now₁ s₀)
      hlnl hanl hnow₂
    rw [hM₂]
    rw [show (getLinks d).filter (fun l => !hasSub l
        (mergeSubject (getLinks d) (dblpAffsOf d.person.note) now₁ s₀)) = []
      from by
      rw [List.filter_eq_nil_iff]
      intro l hl h
      rw [hpresent l hl] at h
      simp at h]
    rw [show (splitL (mergeSubject (getLinks d) (dblpAffsOf d.person.note)
          now₁ s₀)).take 1 ++ [] ++
        (splitL (mergeSubject (getLinks d) (dblpAffsOf d.person.note)
          now₁ s₀)).drop 1
        = splitL (mergeSubject (getLinks d) (dblpAffsOf d.person.note)
          now₁ s₀) from by
      rw [List.append_nil]
      exact List.take_append_drop 1 _]
    rw [filterP_coreLines, hM₁, List.filter_append, filter_keepLine_filterP,
      filter_keepLine_affLines, List.append_nil, ← hM₁]

/-- Instantiation of `claim_C1` on the concrete counterexample scenario:
the second run leaves every other note untouched and preserves the
subject note's normalized lines. -/
theorem claim_C1_witness :
    ∃ v₁ v₂,
      fetchRun cexEnv "t1".data cexUrl cexSubject cexV0 = some v₁ ∧
      fetchRun cexEnv "t2".data cexUrl cexSubject v₁ = some v₂ ∧
      (∀ p, p ≠ cexSubject → v₂.lookup p = v₁.lookup p) ∧
      coreLines ((v₂.lookup cexSubject).getD [])
        = coreLines ((v₁.lookup cexSubject).getD []) :=
  claim_C1 cexEnv "t1".data "t2".data cexUrl cexSubject cexV0 cexProfile []
    (by decide)
    (by decide)
    (by decide)
    (by decide)
    (by decide)
    (by rw [show ((extractPubs cexProfile).filter pubKindKnown)
          = [] from rfl]
        exact List.Pairwise.nil)
    (by simp)
    (by simp)
    (fun ks q h => ⟨by
      show (if q ∈ ks then [((1 : ℚ), q)] else []) = [(1, q)]
      rw [if_pos h], by
      show (if q ∈ ks then [(some (0 : ℚ), q)] else []) = [(some 0, q)]
      rw [if_pos h]⟩)
    (fun ks q h => by
      show (if q ∈ ks then [((1 : ℚ), q)] else []) = []
      rw [if_neg h])
    (by decide)
    (by decide)
    (by decide)
    (by decide)
    (by decide)
    (by decide)
    (by decide)
    (by decide)

/-! ## Claim C10: the identity-link lines -/

/-- A domain field of the `links` object stays untouched while no
processed URL mentions that domain. -/
theorem foldProcessURL_orcid (us : List Str) : ∀ (acc : Links),
    (∀ u ∈ us, hasSub "orcid.org".data u = false) →
    (us.foldl processURL acc).orcid = acc.orcid := by
  induction us with
  | nil => intro acc _; rfl
  | cons u us ih =>
    intro acc h
    rw [List.foldl_cons, ih _ (fun x hx => h x (by simp [hx]))]
    have h0 : hasSub "orcid.org".data u = false := h u (by simp)
    unfold processURL
    split_ifs with h1 h2 h3
    · rw [h0] at h1
      simp at h1
    · rfl
    · rfl
    · rfl

theorem foldProcessURL_wikipedia (us : List Str) : ∀ (acc : Links),
    (∀ u ∈ us, hasSub "wikipedia.org".data u = false) →
    (us.foldl processURL acc).wikipedia = acc.wikipedia := by
  induction us with
  | nil => intro acc _; rfl
  | cons u us ih =>
    intro acc h
    rw [List.foldl_cons, ih _ (fun x hx => h x (by simp [hx]))]
    have h0 : hasSub "wikipedia.org".data u = false := h u (by simp)
    unfold processURL
    split_ifs with h1 h2 h3
    · rfl
    · rw [h0] at h2
      simp at h2
    · rfl
    · rfl

theorem foldProcessURL_mgp (us : List Str) : ∀ (acc : Links),
    (∀ u ∈ us, hasSub "mathgenealogy.org".data u = false) →
    (us.foldl processURL acc).mgp = acc.mgp := by
  induction us with
  | nil => intro acc _; rfl
  | cons u us ih =>
    intro acc h
    rw [List.foldl_cons, ih _ (fun x hx => h x (by simp [hx]))]
    have h0 : hasSub "mathgenealogy.org".data u = false := h u (by simp)
    unfold processURL
    split_ifs with h1 h2 h3
    · rfl
    · rfl
    · rw [h0] at h3
      simp at h3
    · rfl

/-- A profile carrying exactly one URL, an orcid link. -/
def c10Profile : DblpPerson :=
  { person := { note := none, url := some (.one "https://orcid.org/0000".data) },
    coauthors := none, r := .inr [], n := 0, name := "N".data }

/-- C10: for every profile, `getLinks` is exactly the lines obtained by
taking the orcid, wikipedia and mgp slots in that fixed declaration
order — independent of the order of the profile's URLs — rendering each
nonempty slot as the line `<domain-key>: <url>` and omitting each empty
slot; hence at most three lines; and a domain that no profile URL
mentions has an empty slot, so it contributes no line at all. -/
theorem claim_C10 (d : DblpPerson) :
    (getLinks d
      = [(if (linksOf d).orcid = [] then none
            else some ("orcid: ".data ++ (linksOf d).orcid)),
         (if (linksOf d).wikipedia = [] then none
            else some ("wikipedia: ".data ++ (linksOf d).wikipedia)),
         (if (linksOf d).mgp = [] then none
            else some ("mgp: ".data ++ (linksOf d).mgp))].reduceOption) ∧
    (getLinks d).length ≤ 3 ∧
    ((∀ u ∈ urlsOf d, hasSub "orcid.org".data u = false) →
      (linksOf d).orcid = []) ∧
    ((∀ u ∈ urlsOf d, hasSub "wikipedia.org".data u = false) →
      (linksOf d).wikipedia = []) ∧
    ((∀ u ∈ urlsOf d, hasSub "mathgenealogy.org".data u = false) →
      (linksOf d).mgp = []) := by
  refine ⟨?_, ?_, ?_, ?_, ?_⟩
  · have e₁ : "orcid".data ++ ": ".data = "orcid: ".data := by decide
    have e₂ : "wikipedia".data ++ ": ".data = "wikipedia: ".data := by decide
    have e₃ : "mgp".data ++ ": ".data = "mgp: ".data := by decide
    by_cases h1 : (linksOf d).orcid = [] <;>
      by_cases h2 : (linksOf d).wikipedia = [] <;>
        by_cases h3 : (linksOf d).mgp = [] <;>
          simp [getLinks, h1, h2, h3, List.reduceOption, ← e₁, ← e₂, ← e₃]
  · unfold getLinks
    rw [List.length_map]
    simpa using List.length_filter_le _
      [("orcid".data, (linksOf d).orcid), ("wikipedia".data, (linksOf d).wikipedia),
       ("mgp".data, (linksOf d).mgp)]
  · intro h
    rw [linksOf_eq_fold, foldProcessURL_orcid (urlsOf d) ⟨[], [], []⟩ h]
  · intro h
    rw [linksOf_eq_fold, foldProcessURL_wikipedia (urlsOf d) ⟨[], [], []⟩ h]
  · intro h
    rw [linksOf_eq_fold, foldProcessURL_mgp (urlsOf d) ⟨[], [], []⟩ h]

/-- Instantiation of `claim_C10` at a profile holding a single orcid
URL: the output equation, and the empty wikipedia and mgp slots obtained
by discharging the no-matching-URL antecedents concretely. -/
theorem claim_C10_witness :
    (getLinks c10Profile
      = [(if (linksOf c10Profile).orcid = [] then none
            else some ("orcid: ".data ++ (linksOf c10Profile).orcid)),
         (if (linksOf c10Profile).wikipedia = [] then none
            else some ("wikipedia: ".data ++ (linksOf c10Profile).wikipedia)),
         (if (linksOf c10Profile).mgp = [] then none
            else some ("mgp: ".data ++ (linksOf c10Profile).mgp))].reduceOption) ∧
    (linksOf c10Profile).wikipedia = [] ∧ (linksOf c10Profile).mgp = [] :=
  ⟨(claim_C10 c10Profile).1,
   (claim_C10 c10Profile).2.2.2.1 (by decide),
   (claim_C10 c10Profile).2.2.2.2 (by decide)⟩
